import Mathlib

/-!
Verification development for the al-faraheedy-python Arabic prosody analyser
(src/main.py).  The Python module is shallowly embedded: strings are lists of
characters, the `re` module is embedded as a small backtracking regular
expression engine with capture groups (greedy quantifiers, leftmost-first
alternation, non-overlapping left-to-right substitution and findall), and
each function of the source is translated clause by clause.  Fallible Python
operations (list indexing that can raise IndexError) return `Option`.
-/

namespace Faraheedy

/-- Strings are modelled as explicit character lists. -/
abbrev Str := List Char

/-- Python `str.replace pat rep` (non-empty `pat`): replace every
non-overlapping occurrence, scanning left to right. -/
def pyReplaceAux (pat rep : Str) : Nat → Str → Str
  | _, [] => []
  | 0, s => s
  | fuel + 1, c :: rest =>
    if pat.isPrefixOf (c :: rest) then
      rep ++ pyReplaceAux pat rep fuel ((c :: rest).drop pat.length)
    else
      c :: pyReplaceAux pat rep fuel rest

/-- Python `s.replace(pat, rep)` for a non-empty pattern. -/
def pyReplace (pat rep s : Str) : Str := pyReplaceAux pat rep s.length s

/-- Python `re.sub(a+, [b], s)`: each maximal run of the character `a` is
replaced by the single character `b`. -/
def collapseRunsAux (a b : Char) : Nat → Str → Str
  | _, [] => []
  | 0, s => s
  | fuel + 1, c :: rest =>
    if c = a then b :: collapseRunsAux a b fuel (rest.dropWhile (· = a))
    else c :: collapseRunsAux a b fuel rest

/-- Replace maximal runs of `a` by one `b` (as `re.sub(r'a+', 'b', s)`). -/
def collapseRuns (a b : Char) (s : Str) : Str := collapseRunsAux a b s.length s

/-! ## The regular expression engine

Python `re` is embedded for the pattern subset the source uses: literal
characters, character classes `[...]` (plain characters, no ranges),
capturing groups with alternation, the greedy quantifiers `*`, `{n}` and
`{n,}`.  `RE.run` returns the backtracking results in Python's preference
order (first result = the match Python reports): alternation prefers the
left branch, quantifiers astre greedy, a sequence backtracks through its
left part before its right part. -/

inductive RE where
  | eps : RE
  | chr : Char → RE
  | cls : List Char → RE
  | seq : RE → RE → RE
  | alt : RE → RE → RE
  | star : RE → RE
  | grp : Nat → RE → RE
deriving DecidableEq, Repr

/-- Capture environment: group number to captured substring, first binding
wins on lookup (newer captures are consed at the front). -/
abbrev Caps := List (Nat × Str)

/-- Lookup of a capture group. -/
def capLookup (caps : Caps) (n : Nat) : Option Str :=
  (caps.find? (fun p => p.1 = n)).map Prod.snd

/-- All backtracking results of matching `re` against a prefix of `s`, in
Python's preference order.  A result is the remaining suffix together with
the captures.  The recursion is structural on the fuel (decremented on every
call, so results reduce definitionally); with fuel at least
`runFuel re s` the results are exactly Python's.  An iteration of a `star`
body that consumes nothing ends the repetition, which is also how Python's
engine avoids looping on an empty repeat. -/
def RE.run : Nat → RE → Str → List (Str × Caps)
  | 0, _, _ => []
  | fuel + 1, re, s =>
    match re, s with
    | .eps, s => [(s, [])]
    | .chr _, [] => []
    | .chr c, x :: r => if x = c then [(r, [])] else []
    | .cls _, [] => []
    | .cls cs, x :: r => if x ∈ cs then [(r, [])] else []
    | .seq a b, s =>
      (RE.run fuel a s).flatMap
        (fun p => (RE.run fuel b p.1).map (fun q => (q.1, q.2 ++ p.2)))
    | .alt a b, s => RE.run fuel a s ++ RE.run fuel b s
    | .grp n a, s =>
      (RE.run fuel a s).map
        (fun p => (p.1, (n, s.take (s.length - p.1.length)) :: p.2))
    | .star a, s =>
      ((RE.run fuel a s).filter (fun p => p.1.length < s.length)).flatMap
        (fun p => (RE.run fuel (.star a) p.1).map (fun q => (q.1, q.2 ++ p.2)))
      ++ [(s, [])]

/-- Node count of a regex, used for the fuel bound. -/
def reSize : RE → Nat
  | .eps => 1
  | .chr _ => 1
  | .cls _ => 1
  | .seq a b => 1 + reSize a + reSize b
  | .alt a b => 1 + reSize a + reSize b
  | .star a => 1 + reSize a
  | .grp _ a => 1 + reSize a

/-- Sufficient fuel for `RE.run`: the call depth descends the syntax tree
and unwinds at most one `star` iteration per consumed character. -/
def runFuel (re : RE) (s : Str) : Nat := (s.length + 1) * (reSize re + 1)

/-- Repeat a regex exactly `n` times in sequence (the `{n}` quantifier). -/
def seqN : Nat → RE → RE
  | 0, _ => RE.eps
  | n + 1, r => RE.seq r (seqN n r)

/-! ### Pattern parser

Patterns are kept verbatim as the source writes them and compiled to `RE`.
Grammar: alternation of sequences; a sequence is a list of quantified atoms;
an atom is a capturing group `(...)`, a class `[...]` or a literal character.
Groups are numbered by the order of their opening parentheses, as in
Python. -/

/-- Digits prefix of a character list as a number. -/
def readNatAux : Nat → Str → Nat → (Nat × Str)
  | 0, s, acc => (acc, s)
  | fuel + 1, s, acc =>
    match s with
    | c :: rest =>
      if c.isDigit then readNatAux fuel rest (acc * 10 + (c.toNat - 48))
      else (acc, s)
    | [] => (acc, [])

/-- Parse a `{n}` or `{n,}` quantifier body after the opening brace,
returning (n, at-least flag, rest after the closing brace). -/
def readBrace (s : Str) : Option (Nat × Bool × Str) :=
  match readNatAux s.length s 0 with
  | (n, ',' :: '\x7d' :: rest) => some (n, true, rest)
  | (n, '\x7d' :: rest) => some (n, false, rest)
  | _ => none

/-- Apply the postfix quantifiers following an atom. -/
def applyPostfixes (r : RE) (s : Str) : (RE × Str) :=
  match s with
  | '*' :: rest => (RE.star r, rest)
  | '\x7b' :: rest =>
    match readBrace rest with
    | some (n, true, rest2) => (RE.seq (seqN n r) (RE.star r), rest2)
    | some (n, false, rest2) => (seqN n r, rest2)
    | none => (r, s)
  | _ => (r, s)

mutual

/-- Parse an alternation (`a|b|...`) up to `)` or the end of the pattern. -/
def parseAltRE (fuel g : Nat) (s : Str) : Option (RE × Nat × Str) :=
  match fuel with
  | 0 => none
  | fuel + 1 =>
    match parseSeqRE fuel g s with
    | none => none
    | some (r, g1, rest) =>
      match rest with
      | '|' :: rest2 =>
        match parseAltRE fuel g1 rest2 with
        | some (r2, g2, rest3) => some (RE.alt r r2, g2, rest3)
        | none => none
      | _ => some (r, g1, rest)

/-- Parse a sequence of quantified atoms, stopping at `|`, `)` or the end. -/
def parseSeqRE (fuel g : Nat) (s : Str) : Option (RE × Nat × Str) :=
  match fuel with
  | 0 => none
  | fuel + 1 =>
    match s with
    | [] => some (RE.eps, g, [])
    | '|' :: _ => some (RE.eps, g, s)
    | ')' :: _ => some (RE.eps, g, s)
    | _ =>
      match parseAtomRE fuel g s with
      | none => none
      | some (r, g1, rest) =>
        let (r2, rest2) := applyPostfixes r rest
        match parseSeqRE fuel g1 rest2 with
        | some (r3, g2, rest3) => some (RE.seq r2 r3, g2, rest3)
        | none => none

/-- Parse one atom: a group, a class or a literal character. -/
def parseAtomRE (fuel g : Nat) (s : Str) : Option (RE × Nat × Str) :=
  match fuel with
  | 0 => none
  | fuel + 1 =>
    match s with
    | '(' :: rest =>
      match parseAltRE fuel (g + 1) rest with
      | some (r, g1, ')' :: rest2) => some (RE.grp g r, g1, rest2)
      | _ => none
    | '[' :: rest =>
      let cs := rest.takeWhile (· ≠ ']')
      match rest.dropWhile (· ≠ ']') with
      | ']' :: rest2 => some (RE.cls cs, g, rest2)
      | _ => none
    | c :: rest => some (RE.chr c, g, rest)
    | [] => none

end

/-- Compile a pattern string; an unparsable pattern (never the case for the
patterns of the source) compiles to a regex matching nothing. -/
def compileRE (p : String) : RE :=
  match parseAltRE (4 * p.length + 16) 1 p.toList with
  | some (r, _, []) => r
  | _ => RE.cls []

/-- Replacement template item: a literal character or a group backreference. -/
inductive TItem where
  | lit : Char → TItem
  | ref : Nat → TItem
deriving DecidableEq, Repr

/-- Parse a replacement template (backslash-digit is a backreference). -/
def parseTmpl : Str → List TItem
  | [] => []
  | '\\' :: c :: rest =>
    if c.isDigit then TItem.ref (c.toNat - 48) :: parseTmpl rest
    else TItem.lit '\\' :: parseTmpl (c :: rest)
  | c :: rest => TItem.lit c :: parseTmpl rest

/-- Instantiate a replacement template with the captures of a match. -/
def instTmpl (caps : Caps) (t : List TItem) : Str :=
  t.flatMap (fun item =>
    match item with
    | TItem.lit c => [c]
    | TItem.ref n => (capLookup caps n).getD [])

/-- Python `re.sub` on an already-compiled pattern: scan left to right, at
each position take the engine's preferred match; a match consuming nothing
emits the replacement and copies one character. -/
def subAllAux (r : RE) (t : List TItem) : Nat → Str → Str
  | 0, s => s
  | fuel + 1, s =>
    match (RE.run (runFuel r s) r s).head? with
    | some (rem, caps) =>
      if s.length - rem.length = 0 then
        match s with
        | [] => instTmpl caps t
        | c :: rest => instTmpl caps t ++ c :: subAllAux r t fuel rest
      else instTmpl caps t ++ subAllAux r t fuel rem
    | none =>
      match s with
      | [] => []
      | c :: rest => c :: subAllAux r t fuel rest

/-- Python `re.sub(p, t, s)` for the pattern subset of the source. -/
def pySub (p t : String) (s : Str) : Str :=
  subAllAux (compileRE p) (parseTmpl t.toList) (s.length + 1) s

/-- Apply an ordered list of (pattern, replacement) rules, each seeing the
output of the previous one — the shape of every rewrite pass of the source. -/
def applyRules (rules : List (String × String)) (s : Str) : Str :=
  rules.foldl (fun acc r => pySub r.1 r.2 acc) s

/-- Python `re.findall` for a pattern with exactly one capture group: the
list of group-1 captures of the non-overlapping left-to-right matches. -/
def findallCapsAux (r : RE) : Nat → Str → List Str
  | 0, _ => []
  | fuel + 1, s =>
    match (RE.run (runFuel r s) r s).head? with
    | some (rem, caps) =>
      let cap := (capLookup caps 1).getD []
      if s.length - rem.length = 0 then
        match s with
        | [] => [cap]
        | _ :: rest => cap :: findallCapsAux r fuel rest
      else cap :: findallCapsAux r fuel rem
    | none =>
      match s with
      | [] => []
      | _ :: rest => findallCapsAux r fuel rest

/-- Python `re.findall(p, s)` (one capture group). -/
def findallCaps (p : String) (s : Str) : List Str :=
  findallCapsAux (compileRE p) (s.length + 1) s

/-- Python `re.match(p, s)` viewed as a Boolean: does the pattern match some
prefix of `s` starting at position 0? -/
def reMatches (p : String) (s : Str) : Bool :=
  !(RE.run (runFuel (compileRE p) s) (compileRE p) s).isEmpty

/-! ## The rewrite tables of the source, verbatim -/

def specialRules : List (String × String) := [
  ("و[َُِْ]*ا#", "وْ#"),
  ("#عمرٍو#", "#عمْرٍ#"),
  ("#عمروٍ#", "#عمْرٍ#"),
  ("#عمرًو#", "#عمْرً#"),
  ("#عمروً#", "#عمْرً#"),
  ("#عمرٌو#", "#عمْرٌ#"),
  ("#عمروٌ#", "#عمْرٌ#"),
  ("#عمرو#", "#عمْر#"),
  ("آ", "أا"),
  ("ى#الله#", "لّاه#"),
  ("تالله#", "تلّاه#"),
  ("ا#الله#", "لّاه#"),
  ("اللهُ#", "الْلاهُ#"),
  ("اللهَ#", "الْلاهَ#"),
  ("اللهِ#", "الْلاهِ#"),
  ("الله#", "الْلاه#"),
  ("للهِ#", "للْلاهِ#"),
  ("لله#", "للْلاه#"),
  ("#الل[َّ]*هم([َّ]*)#", "#الْلاهم\\1#"),
  ("#الإله([َُِْ]*)#", "#الإلاه\\1#"),
  ("#لل[ْ]*إله([َُِْ]*)#", "للْإلاه\\1#"),
  ("#إله([َُِْ]*)([يهمنا])([َُِْ]*)#", "#إلاه\\1\\2\\3#"),
  ("الر[َّ]*حمن([َُِْ]*)#", "الرَّحْمان\\1#"),
  ("للر[َّ]*حمن([َُِْ]*)#", "لِرَّحْمان\\1#"),
  ("#([فلكب]*)ه[َ]*ذ[َ]*ا[ْ]*#", "#\\1هَاذَا#"),
  ("#([فلكب]*)ه[َ]*ذ[ِ]*ه([َُِ]*)#", "#\\1هَاذِه\\2#"),
  ("#([فلكب]*)ه[َُِ]*ؤ[َُِ]*ل[َِ]*ا[ْ]*ء([َُِْ]*)#", "#\\1هَاؤُلَاء\\2#"),
  ("#([فلكب]*)ذ[َُِ]*ل[َُِ]*ك([َِ]*)#", "#\\1ذَالِك\\2#"),
  ("#([فلكب]*)ه[َُِ]*ذ[َُِ]*ي([َِ]*)#", "#\\1هَاذِي\\2#"),
  ("#([فلكب]*)ه[َُِ]*ذ[َِ]*ا[ْ]*ن([َُِْ]*)#", "#\\1هَاذَان\\2#"),
  ("#([فلكب]*)ه[َُِ]*ذ[َِ]*ي[ْ]*ن([َُِْ]*)#", "#\\1هَاذَيْن\\2#"),
  ("#([فلكب]*)ه[َُِ]*ه[َِ]*ن[ْ]*ا([َُِْ]*)#", "#\\1هَاهُنَا#"),
  ("#([فلكب]*)ه[َُِ]*ه[َِ]*ن[ْ]*ا[ْ]*ك([َُِْ]*)#", "#\\1هَاهُنَاك\\2#"),
  ("#([فلكب]*)ه[َُِ]*ك[َِ]*ذ[ْ]*ا([َُِْ]*)#", "#\\1هَاكَذَا#"),
  ("#ل[َُِ]*ك[َِ]*ن([ْ]*)#", "#لَاْكِنْ#"),
  ("#ل[َُِ]*ك[َِ]*ن([ّ]*)#", "#لَاْكِنْنَ#"),
  ("#ا[َُِ]*ل[َُِ]*ذ[َُِ]*ي([َُِْ]*)#", "#اللّذِيْ#"),
  ("#([فبك]*)ا[َُِ]*ل[َُِ]*ذ[َُِ]*ي([َُِْ]*)#", "#\\1اللّذِيْ#"),
  ("#ل[َُِ]*ل[َُِ]*ذ[َُِ]*ي([َُِْ]*)#", "#لِلْلَذِيْ#"),
  ("#ا[َُِ]*ل[َُِ]*ت[َُِ]*ي([َُِْ]*)#", "#اللّتِيْ#"),
  ("#([فبك]*)ا[َُِ]*ل[َُِ]*ت[َُِ]*ي([َُِْ]*)#", "#\\1اللّتِيْ#"),
  ("#ل[َُِ]*ل[َُِ]*ت[َُِ]*ي([َُِْ]*)#", "#لِلْلَتِيْ#"),
  ("#ا[َُِ]*ل[َُِ]*ذ[َُِ]*ي[َُِ]*ن([َِ]*)#", "#اللّذِيْنَ#"),
  ("#([فبك]*)ا[َُِ]*ل[َُِ]*ذ[َُِ]*ي[َُِ]*ن([َِ]*)#", "#\\1اللّذِيْنَ#"),
  ("#ل[َُِ]*ل[َُِ]*ذ[َُِ]*ي[َُِ]*ن([َِ]*)#", "#لِلْلَذِيْنَ#"),
  ("#د[َُِ]*ا[َُِ]*و[َُِ]*د([ٌٍَِ]*|[اً]*)#", "#دَاوُوْد\\1#"),
  ("#ط[َُِ]*ا[َُِ]*و[َُِ]*س([ٌٍَِ]*|[اً]*)#", "#طَاوُوْس\\1#"),
  ("#ن[َُِ]*ا[َُِ]*و[َُِ]*س([ٌٍَِ]*|[اً]*)#", "#نَاوُوْس\\1#"),
  ("#ط[َُِ]*ه[َُِ]*#", "#طاها#")
]

def lunarSolarRules : List (String × String) := [
  ("و#ال([تثدذرزسشصضطظلن])", "و#\\1ّ"),
  ("(ا[َُِْ]*|ى[َُِْ]*|ي[ُِْ]*|وْ)#ال([تثدذرزسشصضطظلن])", "#\\2ّ"),
  ("(ي[َّ]*)#ال([تثدذرزسشصضطظلن])", "\\1#\\2ّ"),
  ("ة([َُِ]*)#ال([تثدذرزسشصضطظلن])", "ت\\1#\\2ّ"),
  ("#([فكب]*)ال([تثدذرزسشصضطظلن])", "#\\1\\2ّ"),
  ("#لل([تثدذرزسشصضطظلن])", "ل#\\1ّ"),
  ("#ال(ا)", "#لِ"),
  ("(ا[َُِْ]*|ى[َُِْ]*|ي[ُِْ]*|وْ)#ال([أإبغحجكوخفعقيمه])", "#لْ\\2"),
  ("#([فكب]*)ال([أإبغحجكوخفعقيمه])", "#\\1لْ\\2"),
  ("#ال([أإبغحجكوخفعقيمه])", "#ألْ\\1"),
  ("#لل([أإبغحجكوخفعقيمه])", "#للْ\\1")
]

def tanweenRules : List (String × String) := [
  ("اً", "نْ"),
  ("ةٌ", "تُنْ"),
  ("ةً", "تَنْ"),
  ("ةٍ", "تِنْ"),
  ("ىً", "نْ"),
  ("[ًٌٍ]", "نْ")
]

def hamzatRules : List (String × String) := [
  ("([يواى]*)#ا[َُِْ]*ب[َُِْ]*ن", "#بْن"),
  ("#([فكلب]*)ا[َُِْ]*ب[َُِْ]*ن", "#\\1بْن"),
  ("([يواى]*)#ا[َُِْ]*م[َُِْ]*ر", "#مْر"),
  ("#([فكلب]*)ا[َُِْ]*م[َُِْ]*ر", "#\\1مْر"),
  ("([يواى]*)#ا[َُِْ]*ث[َُِْ]*ن[َُِْ]*ا[َُِْ]*ن", "#ثْنان"),
  ("#([فكلب]*)ا[َُِْ]*ث[َُِْ]*ن[َُِْ]*ا[َُِْ]*ن", "#\\1ثْنان"),
  ("([يواى]*)#ا[َُِْ]*ث[َُِْ]*ن[َُِْ]*ي[َُِْ]*ن", "#ثْنيْن"),
  ("#([فكلب]*)ا[َُِْ]*ث[َُِْ]*ن[َُِْ]*ي[َُِْ]*ن", "#\\1ثْنيْن"),
  ("([يواى]*)#ا[َُِْ]*ث[َُِْ]*ن[َُِْ]*ت[َُِْ]*ا[َُِْ]*ن", "#ثْنتان"),
  ("#([فكلب]*)ا[َُِْ]*ث[َُِْ]*ن[َُِْ]*ت[َُِْ]*ا[َُِْ]*ن", "#\\1ثْنتان"),
  ("([يواى]*)#ا[َُِْ]*ث[َُِْ]*ن[َُِْ]*ت[َُِْ]*ي[َُِْ]*ن", "#ثْنتيْن"),
  ("#([فكلب]*)ا[َُِْ]*ث[َُِْ]*ن[َُِْ]*ت[َُِْ]*ي[َُِْ]*ن", "#\\1ثْنتيْن"),
  ("([يواى]*)#ا[َُِْ]*س[َُِْ]*ت([َُِْ]*)", "#سْت\\2"),
  ("#([فكلب]*)ا[َُِْ]*س[َُِْ]*ت([َُِْ]*)", "#\\1سْت\\2"),
  ("(ا|ي|ى)#ا(أ|إ|ب|ت|ث|ج|ح|خ|د|ذ|ر|ز|س|ش|ص|ض|ط|ظ|ع|غ|ف|ق|ك|م|ن|ه|و|ي)", "#\\2ْ"),
  ("#([فكلب]*)ا(أ|إ|ب|ت|ث|ج|ح|خ|د|ذ|ر|ز|س|ش|ص|ض|ط|ظ|ع|غ|ف|ق|ك|م|ن|ه|و|ي)([أإبتثجحخدذرزسشصضطظعغفقكلمنهوي]\x7b4,\x7d)", "#\\1\\2ْ\\3"),
  ("#ا(أ|إ|ب|ت|ث|ج|ح|خ|د|ذ|ر|ز|س|ش|ص|ض|ط|ظ|ع|غ|ف|ق|ك|م|ن|ه|و|ي)", "#\\1ْ")
]

def meterPatternsTable : List (String × String) := [
  ("taweel", "%U-[-U]U---U-[U-]U(---|-U-|--)%"),
  ("baseet", "%(--U-|U-U-)(-U-|UU-)--U-(-U-|UU-|--)%"),
  ("madeed", "%[-U]U--[-U]U-(-U--|-U-U|-U-|UU-)%"),
  ("kamel", "%(UU|-)-U-(UU|-)-U-(UU-U-|--U-|UU--|---)%"),
  ("rajaz", "%(--U-|U-U-|-UU-|UUU-)(--U-|U-U-|-UU-|UUU-)(--U-|U-U-|-UU-|UUU-|---)%"),
  ("ramal", "%(-U--|UU--|UU-U|-U-U)(-U--|UU--|UU-U|-U-U)(-U--|-U-|UU-|-U-U)%"),
  ("saree3", "%(--U-|U-U-|-UU-|UUU-)(--U-|U-U-|-UU-|UUU-)(-U-|-U-U)%"),
  ("khafeef", "%(-U--|UU--)(--U-|U-U-)(-U--|UU--|---|UU-)%"),
  ("munsare7", "%(--U-|U-U-|-UU-|UUU-)(---U|-U-U|UU-U)(--U-|-UU-|---)%"),
  ("wafer", "%(U-UU-|U---)(U-UU-|U---)(U--)%"),
  ("o7othKamel", "%(UU-U-|--U-)(UU-U-|--U-)UU-%"),
  ("mutakareb", "%(U--|U-U)\x7b3\x7d(U--|U-U|U-)%"),
  ("mutadarak", "%(-U-|UU-|--)(-U-|UU-|--)(-U-|UU-|--)(-U-|UU-|--)%"),
  ("mu5alla3Baseet", "%(--U-|U-U-|-UU-)-U-U--%"),
  ("majzoo2Baseet", "%(--U-|U-U-|-UU-|UUU-)(-U-|UU-)(--U-|---|--U-U)%"),
  ("majzoo2Kamel", "%(UU-U-|--U-)(UU-U-|UU--|--U-|UU-U-U|UU-U--)%"),
  ("majzoo2Ramal", "%(-U--|UU--)(-U--|UU--|-U--U|-U-)%"),
  ("majzoo2Saree3", "%(--U-|U-U-|-UU-|UUU-)(-U-|-U-U)%"),
  ("majzoo2khafeef", "%(-U--|UU--)(--U-|U-U-)%"),
  ("majzoo2Munsare7", "%(--U-|U-U-|-UU-|UUU-)(---U|---)%"),
  ("majzoo2Mutakareb", "%(U--|U-U)\x7b2\x7d(U--|U-U|U-|-)%"),
  ("majzoo2Mutadarak", "%(-U-|UU-|--)\x7b2\x7d(-U-|-U-U|UU--)%"),
  ("hazaj", "%(U---|U--U)(U---|U--U)%"),
  ("majzoo2Wafer", "%(U-UU-|U---)(U-UU-|U---)%"),
  ("majzoo2Rajaz", "%(--U-|U-U-|-UU-|UUU-)(--U-|U-U-|-UU-|UUU-|---|--U--)%"),
  ("modare3", "%(U--U|U-U-)-U--%"),
  ("moktadab", "%-U-U-UU-%"),
  ("mojtath", "%(--U-|U-U-)(-U--|UU--|---)%"),
  ("manhookRajaz", "%(--U-|U-U-|-UU-|UUU-|---)%")
]

def ALPHABET : List Str := ["ا".toList, "أ".toList, "إ".toList, "آ".toList, "ء".toList, "ئ".toList, "ؤ".toList, "ى".toList, "ب".toList, "ت".toList, "ة".toList, "ث".toList, "ج".toList, "ح".toList, "خ".toList, "د".toList, "ذ".toList, "ر".toList, "ز".toList, "ش".toList, "س".toList, "ص".toList, "ض".toList, "ط".toList, "ظ".toList, "ع".toList, "غ".toList, "ف".toList, "ق".toList, "ك".toList, "ل".toList, "م".toList, "ن".toList, "ه".toList, "و".toList, "ي".toList, "#".toList]

def HARAKAT : List Str := ["ّ".toList, "َ".toList, "ُ".toList, "ِ".toList, "ً".toList, "ٌ".toList, "ٍ".toList, "ْ".toList]

/-! ## Character constants -/

/-- Shadda. -/
def shaddaC : Char := Char.ofNat 0x651
/-- Fatha. -/
def fathaC : Char := Char.ofNat 0x64E
/-- Damma. -/
def dammaC : Char := Char.ofNat 0x64F
/-- Kasra. -/
def kasraC : Char := Char.ofNat 0x650
/-- Sukun. -/
def sukunC : Char := Char.ofNat 0x652
/-- Tanween fath. -/
def fathatanC : Char := Char.ofNat 0x64B
/-- Tanween damm. -/
def dammatanC : Char := Char.ofNat 0x64C
/-- Tanween kasr. -/
def kasratanC : Char := Char.ofNat 0x64D

/-! ## The grapheme layer: `_str_to_chars` and `_clean_str` -/

/-- The pairing loop of `_str_to_chars`: two consecutive non-`#` characters
form one unit, `#` is its own unit, anything else is a single unit. -/
def strToCharsAux : Str → List Str
  | [] => []
  | [c] => if c = '#' then [['#']] else [[c]]
  | a :: b :: rest =>
    if a ≠ '#' ∧ b ≠ '#' then [a, b] :: strToCharsAux rest
    else if a = '#' then ['#'] :: strToCharsAux (b :: rest)
    else [a] :: strToCharsAux (b :: rest)

/-- `_str_to_chars`: spaces become `#`, then the text is cut into units. -/
def strToChars (text : Str) : List Str :=
  strToCharsAux (text.map (fun c => if c = ' ' then '#' else c))

/-- The punctuation dropped by `_clean_str`. -/
def punctuationList : List Char :=
  ['؟', '?', '/', '\\', '!', ':', '-', '"', ')', '(', ',', '،']

/-- `_clean_str`: ensure a leading `#`, collapse space and `#` runs, drop
punctuation, keep only units of the letter or diacritic inventories, ensure a
trailing `#`. -/
def cleanStr (text : Str) : Str :=
  let t1 := if text.take 1 = ['#'] then text else '#' :: text
  let t2 := collapseRuns ' ' '#' t1
  let t3 := collapseRuns '#' '#' t2
  let t4 := punctuationList.foldl (fun acc p => pyReplace [p] [] acc) t3
  let kept := ((strToChars t4).filter (fun u => u ∈ ALPHABET ∨ u ∈ HARAKAT)).flatten
  if t4.getLast? = some '#' then kept else kept ++ ['#']

/-! ## Pass B.1: `_handle_special_cases` -/

/-- `_handle_special_cases`: clean, then the special-case rule table. -/
def handleSpecialCases (text : Str) : Str :=
  applyRules specialRules (cleanStr text)

/-! ## Pass B.2: `_handle_lunar_solar_lam` -/

/-- The lunar letters of the source, as units. -/
def lunarLetterUnits : List Str :=
  ["أ", "إ", "ب", "غ", "ح", "ج", "ك", "و", "خ", "ف", "ع", "ق", "ي", "م", "ه"].map
    String.toList

/-- `_handle_lunar_solar_lam`: positional rewriting of a leading definite
article, then the lunar/solar rule table. -/
def handleLunarSolarLam (text : Str) : Str :=
  let text := cleanStr text
  let chars := strToChars text
  if chars.length < 4 then text else
  let chars :=
    if chars.getD 0 [] = ['#'] ∧ chars.getD 1 [] = ['ا'] ∧ chars.getD 2 [] = ['ل'] ∧
        chars.getD 3 [] = ['ا'] then
      ((((chars.set 0 ['#']).set 1 ['أ']).set 2 ['ل']).set 3 [kasraC])
    else chars
  let chars :=
    if chars.getD 0 [] = ['#'] ∧ chars.getD 1 [] = ['ا'] ∧ chars.getD 2 [] = ['ل'] ∧
        chars.length > 3 ∧ chars.getD 3 [] ∈ lunarLetterUnits then
      ((chars.set 0 ['#']).set 1 ['أ']).set 2 ['ل', sukunC]
    else if chars.getD 0 [] = ['#'] ∧ chars.getD 1 [] = ['ل'] ∧ chars.getD 2 [] = ['ل'] ∧
        chars.length > 3 ∧ chars.getD 3 [] ∈ lunarLetterUnits then
      ((chars.set 0 ['#']).set 1 ['ل']).set 2 ['ل', sukunC]
    else if chars.getD 0 [] = ['#'] ∧ chars.getD 1 [] = ['ف'] ∧ chars.getD 2 [] = ['ا'] ∧
        chars.getD 3 [] = ['ل'] ∧ chars.length > 4 ∧ chars.getD 4 [] ∈ lunarLetterUnits then
      (((chars.set 0 ['#']).set 1 ['ف']).set 2 ['ل']).set 3 [sukunC]
    else if chars.getD 0 [] = ['#'] ∧ chars.getD 1 [] = ['ب'] ∧ chars.getD 2 [] = ['ا'] ∧
        chars.getD 3 [] = ['ل'] ∧ chars.length > 4 ∧ chars.getD 4 [] ∈ lunarLetterUnits then
      (((chars.set 0 ['#']).set 1 ['ب']).set 2 ['ل']).set 3 [sukunC]
    else if chars.getD 0 [] = ['#'] ∧ chars.getD 1 [] = ['ك'] ∧ chars.getD 2 [] = ['ا'] ∧
        chars.getD 3 [] = ['ل'] ∧ chars.length > 4 ∧ chars.getD 4 [] ∈ lunarLetterUnits then
      (((chars.set 0 ['#']).set 1 ['ك']).set 2 ['ل']).set 3 [sukunC]
    else if chars.getD 0 [] = ['#'] ∧ chars.getD 1 [] = ['ا'] ∧ chars.getD 2 [] = ['ل'] then
      let chars := chars.set 1 ['أ']
      if chars.length > 3 ∧ chars.getD 3 [] ≠ [shaddaC] then
        ((chars.set 3 (chars.getD 3 [] ++ [shaddaC])).eraseIdx 2)
      else chars
    else chars
  let chars := if chars.getD 0 [] ≠ ['#'] then ['#'] :: chars else chars
  let chars := if chars.getLast? ≠ some ['#'] then chars ++ [['#']] else chars
  applyRules lunarSolarRules chars.flatten

/-! ## Pass B.3: `_handle_tanween_shaddeh` -/

/-- The shadda loop: a shadda unit whose (already rewritten) predecessor is a
letter becomes sukun-plus-that-letter. -/
def shaddehLoopAux : Option Str → List Str → List Str
  | _, [] => []
  | prev, u :: rest =>
    let keep := match prev with
      | some p => if u = [shaddaC] ∧ p ∈ ALPHABET then sukunC :: p else u
      | none => u
    keep :: shaddehLoopAux (some keep) rest

/-- `_handle_tanween_shaddeh`: expand shadda, lengthen a final vowel for an
ʿajuz hemistich, then expand tanween and drop remaining shaddas. -/
def handleTanweenShaddeh (text : Str) (isAjez : Bool) : Str :=
  let text := cleanStr text
  let chars := strToChars text
  if chars.isEmpty then text else
  let chars := shaddehLoopAux none chars
  let chars :=
    if chars.getLast? ≠ some [sukunC] ∧
        (chars.getLast? = some ['ا'] ∨ chars.getLast? = some ['ى']) then
      chars ++ [[sukunC]]
    else chars
  let chars :=
    if isAjez then
      if chars.getLast? = some [sukunC] ∨ chars.getLast? = some [dammatanC] ∨
          chars.getLast? = some [fathatanC] ∨ chars.getLast? = some [kasratanC] then
        chars
      else
        let ext :=
          if chars.getLast? = some [fathaC] then ['ا', sukunC]
          else if chars.getLast? = some [kasraC] then ['ي', sukunC]
          else if chars.getLast? = some [dammaC] then ['و', sukunC]
          else ['و', sukunC]
        chars ++ [ext]
    else chars
  let text := applyRules tanweenRules chars.flatten
  pyReplace [shaddaC] [] text

/-! ## Pass B.4: `_handle_hamzat_wasl` -/

/-- `_handle_hamzat_wasl`: rewrite a leading bare alif to hamza-kasra, apply
the hamzat-wasl rule table, and collapse doubled sukun. -/
def handleHamzatWasl (text : Str) : Str :=
  let text := cleanStr text
  let chars := strToChars text
  if chars.isEmpty then text else
  let chars :=
    if chars.length > 3 ∧ chars.getD 1 [] = ['ا'] ∧ chars.getD 2 [] ≠ ['ل'] ∧
        chars.getD 3 [] ≠ ['ل'] then
      chars.set 1 ['إ', kasraC]
    else chars
  let text := applyRules hamzatRules chars.flatten
  pyReplace [sukunC, sukunC] [sukunC] text

/-- The orthographic normaliser B: the four passes in the order every caller
of the source composes them. -/
def normalizeB (text : Str) (isAjez : Bool) : Str :=
  handleHamzatWasl (handleTanweenShaddeh (handleLunarSolarLam (handleSpecialCases text)) isAjez)

/-! ## The skeleton extractor C -/

/-- `_get_chars_only`: letter units only, `#` excluded. -/
def getCharsOnly (text : Str) : Str :=
  ((strToChars text).filter (fun u => u ∈ ALPHABET ∧ u ≠ ['#'])).flatten

/-- The harakat collection loop of `_get_harakat_only` (the last unit is
only inspected as a successor, exactly as `range(len(chars) - 1)` does). -/
def harakatAux : List Str → Str
  | u :: v :: rest =>
    (if u ∈ HARAKAT then u
     else if u ∈ ALPHABET ∧ u ≠ ['#'] ∧ v ∉ HARAKAT then
       (if u ≠ ['ى'] ∧ u ≠ ['ا'] then [fathaC] else [sukunC])
     else if u ∈ ALPHABET ∧ u ≠ ['#'] ∧ v ∈ HARAKAT then v
     else []) ++ harakatAux (v :: rest)
  | _ => []

/-- `_get_harakat_only`: collect diacritics, then normalise kasra and damma
to fatha. -/
def getHarakatOnly (text : Str) : Str :=
  pyReplace [dammaC] [fathaC] (pyReplace [kasraC] [fathaC] (harakatAux (strToChars text)))

/-- `_get_rokaz_khoutayt`: fatha-sukun pairs become `-`, then every
remaining fatha and every remaining sukun becomes `U`. -/
def getRokazKhoutayt (harakat : Str) : Str :=
  pyReplace [sukunC] ['U'] (pyReplace [fathaC] ['U'] (pyReplace [fathaC, sukunC] ['-'] harakat))

/-! ## The meter matcher D -/

/-- The first-match loop of `_get_ba7er` over the pattern table. -/
def getBa7erAux (s : Str) : List (String × String) → String
  | [] => "unknown"
  | (n, p) :: rest => if reMatches p s then n else getBa7erAux s rest

/-- `_get_ba7er`: wrap the skeleton in `%` anchors and return the first
pattern of the table that `re.match`es, or `unknown`. -/
def getBa7er (rokaz : Str) : String :=
  getBa7erAux ('%' :: (rokaz ++ ['%'])) meterPatternsTable



/-! ## The foot segmenter E: `_get_tafa3eel` -/

/-- `_get_tafa3eel`: the source implements the walks for `taweel` and
`baseet` in detail; every other meter yields the empty list. The result
interleaves foot names with the letter spans, as the Python list does. -/
def getTafa3eel (rokaz chars : Str) (ba7er : String) : List Str :=
  if ba7er = "taweel" then
    let s := rokaz.take 3
    let r0 : List Str × Nat :=
      if s = "U--".toList then (["فَعُوْلُنْ".toList, chars.take 10], 10)
      else if s = "U-U".toList then (["فَعُوْلُ".toList, chars.take 8], 8)
      else ([], 0)
    let res1 := r0.1 ++ ["مَفَاْعِيْلُنْ".toList, (chars.drop r0.2).take 14]
    let i1 := r0.2 + 14
    let s2 := (rokaz.drop 7).take 3
    let r2 : List Str × Nat :=
      if s2 = "U--".toList then (res1 ++ ["فَعُوْلُنْ".toList, (chars.drop i1).take 10], i1 + 10)
      else if s2 = "U-U".toList then (res1 ++ ["فَعُوْلُ".toList, (chars.drop i1).take 8], i1 + 8)
      else (res1, i1)
    let s3 := rokaz.drop 10
    if s3 = "U---".toList then r2.1 ++ ["مَفَاْعِيْلُنْ".toList, (chars.drop r2.2).take 14]
    else if s3 = "U-U-".toList then r2.1 ++ ["مَفَاْعِلُنْ".toList, (chars.drop r2.2).take 12]
    else if s3 = "U--".toList then r2.1 ++ ["فَعُوْلُنْ".toList, (chars.drop r2.2).take 10]
    else r2.1
  else if ba7er = "baseet" then
    let s := rokaz.take 4
    let r0 : List Str × Nat :=
      if s = "--U-".toList then (["مُسْتَفْعِلُنْ".toList, chars.take 14], 14)
      else if s = "U-U-".toList then (["مُتَفْعِلُنْ".toList, chars.take 12], 12)
      else if s = "-UU-".toList then (["مُسْتَعِلُنْ".toList, chars.take 12], 12)
      else ([], 0)
    let s2 := (rokaz.drop 4).take 3
    let r2 : List Str × Nat :=
      if s2 = "-U-".toList then (r0.1 ++ ["فَاْعِلُنْ".toList, (chars.drop r0.2).take 10], r0.2 + 10)
      else if s2 = "UU-".toList then (r0.1 ++ ["فَعِلُنْ".toList, (chars.drop r0.2).take 8], r0.2 + 8)
      else (r0.1, r0.2)
    let res3 := r2.1 ++ ["مُسْتَفْعِلُنْ".toList, (chars.drop r2.2).take 14]
    let i3 := r2.2 + 14
    let s3 := (rokaz.drop 11).take 3
    if s3 = "-U-".toList then res3 ++ ["فَاْعِلُنْ".toList, (chars.drop i3).take 10]
    else if s3 = "UU-".toList then res3 ++ ["فَعِلُنْ".toList, (chars.drop i3).take 8]
    else if s3 = "--".toList then res3 ++ ["فَاْلُنْ".toList, (chars.drop i3).take 8]
    else res3
  else []

/-! ## The ishbāʿ search F: `_get_truth_values` and `_do_eshbaa3_shater` -/

/-- Heap model of `_get_truth_values`.  The Python rows are mutable list
objects and `trues = falses = _get_truth_values(count - 1)` binds both names
to the same object, so the per-row `insert`s hit each referenced row once per
reference.  The state is (list of row references, heap of row contents). -/
def getTVAux : Nat → (List Nat × List Str)
  | 0 => ([], [])
  | 1 => ([0, 1], [['1'], ['0']])
  | n + 2 =>
    let (refs, heap) := getTVAux (n + 1)
    let heap := refs.foldl (fun h r => h.set r ('0' :: '1' :: h.getD r [])) heap
    (refs ++ refs, heap)

/-- `_get_truth_values` as the Python returns it (with the row aliasing). -/
def getTruthValuesPy (n : Nat) : List Str :=
  let (refs, heap) := getTVAux n
  refs.map (fun r => heap.getD r [])

/-- The rows a correct truth table of `n` variables would have: all `2 ^ n`
bit strings of length `n`, `1` before `0` in each position. -/
def allBitRows : Nat → List Str
  | 0 => [[]]
  | n + 1 => (allBitRows n).map (fun r => '1' :: r) ++ (allBitRows n).map (fun r => '0' :: r)

/-- The pronoun units that `_do_eshbaa3_shater` splits on. -/
def pronounUnits : List Str := [['ه', dammaC], ['ه', kasraC], ['م', dammaC]]

/-- Python `re.split(r'(هُ|هِ|مُ)#', text)`: text chunks alternate with the
captured pronouns; the `#` of a match is dropped. -/
def splitPronAux : Str → Str → List Str
  | acc, a :: b :: c :: rest =>
    if ((a = 'ه' ∧ (b = dammaC ∨ b = kasraC)) ∨ (a = 'م' ∧ b = dammaC)) ∧ c = '#' then
      acc.reverse :: [a, b] :: splitPronAux [] rest
    else splitPronAux (a :: acc) (b :: c :: rest)
  | acc, l => [acc.reverse ++ l]

/-- Indices of the parts that are captured pronouns. -/
def pronPositions (parts : List Str) : List Nat :=
  (List.range parts.length).filter (fun i => parts.getD i [] ∈ pronounUnits)

/-- Application of one truth-table row: every `1` bit lengthens the pronoun
at the corresponding position; `positions[i]` can be out of range for the
malformed rows, which is Python's IndexError (`none`). -/
def applyStateAux (positions : List Nat) : List Str → Nat → Str → Option (List Str)
  | parts, _, [] => some parts
  | parts, i, b :: bs =>
    if b = '1' then
      match positions[i]? with
      | none => none
      | some p =>
        let u := parts.getD p []
        let u2 :=
          if u = ['ه', dammaC] then u ++ ['و', sukunC]
          else if u = ['ه', kasraC] then u ++ ['ي', sukunC]
          else if u = ['م', dammaC] then u ++ ['و', sukunC]
          else u
        applyStateAux positions (parts.set p u2) (i + 1) bs
    else applyStateAux positions parts (i + 1) bs

/-- Result record of a successful verse analysis (the dict the source
builds, also returned by `_do_eshbaa3_shater`). -/
structure AnalysisResult where
  shater : Str
  arrodi : Str
  chars : Str
  harakat : Str
  rokaz : Str
  ba7erName : String
  tafa3eel : List Str
deriving DecidableEq, Repr

/-- The state loop of `_do_eshbaa3_shater`: first state whose lengthened
text gets a known meter wins; `none` is an uncaught IndexError, `some none`
the `'unknownAlso'` marker. -/
def eshbaaLoop (parts : List Str) (positions : List Nat) :
    List Str → Option (Option AnalysisResult)
  | [] => some none
  | state :: rest =>
    match applyStateAux positions parts 0 state with
    | none => none
    | some tparts =>
      let stateText := collapseRuns '#' '#' tparts.flatten
      let processed := stateText.filter (fun c => c ≠ '#' ∧ c ≠ ' ')
      let chars := getCharsOnly processed
      let harakat := getHarakatOnly processed
      let rokaz := getRokazKhoutayt harakat
      let ba7er := getBa7er rokaz
      if ba7er ≠ "unknown" then
        some (some { shater := stateText, arrodi := processed, chars := chars,
                     harakat := harakat, rokaz := rokaz, ba7erName := ba7er,
                     tafa3eel := getTafa3eel rokaz chars ba7er })
      else eshbaaLoop parts positions rest

/-- `_do_eshbaa3_shater`. -/
def doEshbaa3Shater (text : Str) : Option (Option AnalysisResult) :=
  let text := '#' :: (text ++ ['#'])
  let parts := splitPronAux [] text
  let positions := pronPositions parts
  let truthTable := if positions.isEmpty then [['0']] else getTruthValuesPy positions.length
  eshbaaLoop parts positions truthTable

/-! ## The public classical analysis: `analyze_classical_verse` -/

/-- `analyze_classical_verse`; `none` models an uncaught exception. -/
def analyzeClassicalVerse (text : Str) (isAjez : Bool) : Option AnalysisResult :=
  let oldText := normalizeB text isAjez
  let processed := oldText.filter (fun c => c ≠ '#' ∧ c ≠ ' ')
  let arrodi := processed
  let chars := getCharsOnly arrodi
  let harakat := getHarakatOnly arrodi
  let rokaz := getRokazKhoutayt harakat
  let ba7er := getBa7er rokaz
  if ba7er ≠ "unknown" then
    let taf := (getTafa3eel rokaz chars ba7er).map
      (fun t => pyReplace ['ة'] ['ة', ' '] (pyReplace ['ى'] ['ى', ' '] t))
    some { shater := processed, arrodi := arrodi, chars := chars, harakat := harakat,
           rokaz := rokaz, ba7erName := ba7er, tafa3eel := taf }
  else
    match doEshbaa3Shater oldText with
    | none => none
    | some (some r) => some r
    | some none =>
      some { shater := processed, arrodi := arrodi, chars := chars, harakat := harakat,
             rokaz := rokaz, ba7erName := "unknown", tafa3eel := [] }

/-! ## The free-verse engine G: `_what_tafeela_poem_on` -/

/-- The candidate table keyed on the first four skeleton symbols. -/
def tafeelaBase (rokaz4 : Str) : List (String × String) :=
  if rokaz4 = "UUU-".toList then
    [("rajaz", "(--U-|-UU-|U-U-|UUU-|U-)\x7b5\x7d"), ("khabab", "(UU-|-UU|--)\x7b7\x7d")]
  else if rokaz4 = "UU-U".toList then
    [("kamel", "(UU-U-|--U-)\x7b4\x7d"), ("ramal", "(-U--|UU--|UU-U)\x7b5\x7d"),
     ("mutadarak", "(-U-|UU-)\x7b7\x7d")]
  else if rokaz4 = "UU--".toList then
    [("ramal", "(-U--|UU--|UU-U)\x7b5\x7d")]
  else if rokaz4 = "U-UU".toList then
    [("wafer", "(U-UU-|U---)\x7b4\x7d"), ("mutakareb", "(U--|U-U|U-)\x7b7\x7d")]
  else if rokaz4 = "U-U-".toList then
    [("rajaz", "(--U-|-UU-|U-U-|UUU-|U-)\x7b5\x7d"), ("mutakareb", "(U--|U-U|U-)\x7b7\x7d")]
  else if rokaz4 = "U--U".toList then
    [("wafer", "(U-UU-|U---)\x7b4\x7d"), ("mutakareb", "(U--|U-U|U-)\x7b7\x7d")]
  else if rokaz4 = "U---".toList then
    [("wafer", "(U-UU-|U---)")]
  else if rokaz4 = "-UU-".toList then
    [("rajaz", "(--U-|-UU-|U-U-|UUU-|U-)\x7b5\x7d")]
  else if rokaz4 = "-U-U".toList then
    [("mutadarak", "(-U-|UU-)\x7b7\x7d")]
  else if rokaz4 = "-U--".toList then
    [("ramal", "(-U--|UU--|UU-U)\x7b5\x7d"), ("mutadarak", "(-U-|UU-)\x7b7\x7d")]
  else if rokaz4 = "--U-".toList then
    [("kamel", "(UU-U-|--U-)\x7b4\x7d"), ("rajaz", "(--U-|-UU-|U-U-|UUU-|U-)\x7b5\x7d"),
     ("mutadarak", "(-U-|UU-)\x7b7\x7d")]
  else []

/-- The best-candidate fold of `_what_tafeela_poem_on`, including the
wafer-to-hazaj downgrade performed at assignment time. -/
def wtpFold (testRokaz : Str) : List (String × String) → Nat → String → String
  | [], _, best => best
  | (name, pat) :: rest, maxM, best =>
    let caps := findallCaps pat testRokaz
    if caps.length > maxM then
      let best1 := name
      let best2 :=
        if best1 = "wafer" then
          if "U-UU-".toList ∈ caps then "wafer" else "hazaj"
        else best1
      wtpFold testRokaz rest caps.length best2
    else wtpFold testRokaz rest maxM best

/-- `_what_tafeela_poem_on`. -/
def whatTafeelaPoemOn (rokaz : Str) : String :=
  let rokaz4 := if rokaz.length ≥ 4 then rokaz.take 4 else rokaz
  let base := tafeelaBase rokaz4
  if base.isEmpty then "unknown" else
  let testRokaz := if rokaz.length ≥ 21 then rokaz.take 21 else rokaz
  wtpFold testRokaz base 0 "unknown"


/-! ## The rhyme analyser H: `_analyse_qafeeh` -/

/-- Rhyme analysis record (`QafeehAnalysis` of the source; `type` is named
`qtype` because `type` is reserved). -/
structure QafeehAnalysis where
  text : Str
  qtype : String
  rawee : Str
  wasel : Str
  kharoog : Str
  ta2ses : Str
  dakheel : Str
  redf : Str
  errors : Option (List String)
deriving DecidableEq, Repr

/-- The inner while of the rhyme scan: walk down from `idx` collecting units
that are not letters; stops at a letter (returning its index) or below 0
(returning `none`, Python's `-1`). -/
def qafWalkAux (cs : List Str) : Nat → (List Str × Option Nat)
  | 0 => if cs.getD 0 [] ∈ ALPHABET then ([], some 0) else ([cs.getD 0 []], none)
  | idx + 1 =>
    if cs.getD (idx + 1) [] ∈ ALPHABET then ([], some (idx + 1))
    else
      let r := qafWalkAux cs idx
      (cs.getD (idx + 1) [] :: r.1, r.2)

/-- The backward rhyme-collection loop of `_analyse_qafeeh` (`i` runs from
`len - 1` down to `0`; the fuel argument is `i + 1`).  On crossing the second
sukun-equivalent, one extra unit (and pending diacritics, and possibly the
letter before them) are appended and the loop breaks. -/
def qafScanAux (cs : List Str) : Nat → List Str → Nat → List Str
  | 0, acc, _ => acc
  | i + 1, acc0, sok0 =>
    let u := cs.getD i []
    let acc := acc0 ++ [u]
    let isSok := u = [sukunC] ∨
      (u = ['ا'] ∧ i + 1 < cs.length ∧ cs.getD (i + 1) [] ≠ [sukunC]) ∨
      (u = ['ى'] ∧ i + 1 < cs.length ∧ cs.getD (i + 1) [] ≠ [sukunC])
    let sok := if isSok then sok0 + 1 else sok0
    if sok ≥ 2 then
      let acc := if 1 ≤ i then acc ++ [cs.getD (i - 1) []] else acc
      let walk := if 2 ≤ i then qafWalkAux cs (i - 2) else ([], none)
      let acc := acc ++ walk.1
      if acc.length ≥ 3 ∧ acc.getD (acc.length - 3) [] = [sukunC] ∧ walk.2.isSome then
        acc ++ [cs.getD (walk.2.getD 0) []]
      else acc
    else qafScanAux cs i acc sok

/-- The component loop of `_analyse_qafeeh`: walking the rhyme text
backwards, build (letters, diacritics, word numbers) in the order Python
appends them (the lists are reversed afterwards).  The `i -= 1` of the
source inside a `for` loop has no effect and is omitted. -/
def qafCompAux (cs : List Str) : Nat → Nat → (List Str × List Str × List Nat)
  | 0, _ => ([], [], [])
  | i + 1, wordNo =>
    let u := cs.getD i []
    if u ∈ ALPHABET then
      let w := if u = ['#'] then wordNo + 1 else wordNo
      let r := qafCompAux cs i w
      (u :: r.1, [] :: r.2.1, w :: r.2.2)
    else if u ∈ HARAKAT then
      if 1 ≤ i then
        let w := if u = ['#'] then wordNo + 1 else wordNo
        let r := qafCompAux cs i w
        (cs.getD (i - 1) [] :: r.1, u :: r.2.1, w :: r.2.2)
      else
        let r := qafCompAux cs i wordNo
        ([] :: r.1, u :: r.2.1, wordNo :: r.2.2)
    else qafCompAux cs i wordNo

/-- Classification outcome: rhyme class flag, rawee position, rawee, wasel,
kharoog; `none` is an IndexError on a negative Python index out of range. -/
def qafClassify (alphas haraks : List Str) : Option (Bool × Nat × Str × Str × Str) :=
  let n := alphas.length
  let lastChar := alphas.getD (n - 1) []
  if lastChar = ['ه'] ∧ n > 1 ∧ haraks.getD (n - 2) [] ≠ [sukunC] then
    some (true, n - 2, alphas.getD (n - 2) [] ++ haraks.getD (n - 2) [],
          alphas.getD (n - 1) [] ++ haraks.getD (n - 1) [], [])
  else if lastChar = ['ك'] ∧ n > 1 ∧ haraks.getD (n - 2) [] ≠ [sukunC] then
    some (true, n - 2, alphas.getD (n - 2) [] ++ haraks.getD (n - 2) [],
          alphas.getD (n - 1) [] ++ haraks.getD (n - 1) [], [])
  else if lastChar = ['ا'] ∨ lastChar = ['ى'] ∨ lastChar = ['و'] ∨ lastChar = ['ي'] then
    if n > 1 ∧ alphas.getD (n - 2) [] = ['ه'] ∧ haraks.getD (n - 2) [] ≠ [sukunC] then
      if n ≥ 3 then
        some (true, n - 3, alphas.getD (n - 3) [] ++ haraks.getD (n - 3) [],
              alphas.getD (n - 2) [] ++ haraks.getD (n - 2) [],
              alphas.getD (n - 1) [] ++ haraks.getD (n - 1) [])
      else none
    else
      if n ≥ 2 then
        some (true, n - 2, alphas.getD (n - 2) [] ++ haraks.getD (n - 2) [],
              alphas.getD (n - 1) [] ++ haraks.getD (n - 1) [], [])
      else none
  else
    some (false, n - 1, alphas.getD (n - 1) [] ++ haraks.getD (n - 1) [], [], [])

/-- Redf and taʾsīs detection of `_analyse_qafeeh` given the rawee position;
returns (redf, ta2ses, dakheel). -/
def qafRedf (alphas haraks : List Str) (wordPos : List Nat) (raweePos : Nat) :
    (Str × Str × Str) :=
  if raweePos > 0 then
    let c := alphas.getD (raweePos - 1) []
    let ch := haraks.getD (raweePos - 1) []
    let cbTriple : Str × Str × Int :=
      if raweePos > 1 then
        if alphas.getD (raweePos - 2) [] ≠ ['#'] then
          (alphas.getD (raweePos - 2) [], haraks.getD (raweePos - 2) [],
           (wordPos.getD (raweePos - 2) 0 : Int))
        else if raweePos > 2 then
          (alphas.getD (raweePos - 3) [], haraks.getD (raweePos - 3) [],
           (wordPos.getD (raweePos - 3) 0 : Int))
        else (['غ'], ['غ'], -1)
      else (['غ'], ['غ'], -1)
    let cb := cbTriple.1
    let cbh := cbTriple.2.1
    let cbw := cbTriple.2.2
    if (c = ['و'] ∧ ch = [sukunC] ∧ cbh = [dammaC]) ∨
        (c = ['ي'] ∧ ch = [sukunC] ∧ cbh = [kasraC]) ∨
        (c = ['ا'] ∧ cbh = [fathaC]) ∨ (c = ['ى'] ∧ cbh = [fathaC]) then
      (c ++ ch, [], [])
    else if (cb = ['ا'] ∨ cb = ['ى']) ∧ cbw = 1 then
      ([], cb, c ++ ch)
    else ([], [], [])
  else ([], [], [])

/-- The type description of `_analyse_qafeeh`. -/
def qafTypeDesc (isF : Bool) (kharoog redf ta2ses : Str) : String :=
  if isF then
    if kharoog = [] ∧ redf = [] ∧ ta2ses = [] then "قافية مطلقة مجرَّدة"
    else if redf ≠ [] then
      if kharoog ≠ [] then "قافية مطلقة بردف" ++ " و خروج" else "قافية مطلقة بردف"
    else if ta2ses ≠ [] then
      if kharoog ≠ [] then "قافية مطلقة بتأسيس" ++ " و خروج" else "قافية مطلقة بتأسيس"
    else if kharoog ≠ [] then "قافية مطلقة بخروج"
    else ""
  else
    if redf = [] ∧ ta2ses = [] then "قافية مقيّدة مجرَّدة"
    else if redf ≠ [] then "قافية مقيّدة بردف"
    else "قافية مقيّدة بتأسيس"

/-- The component-analysis half of `_analyse_qafeeh`, taking the already
preprocessed verse text (after B and `#`/space removal). -/
def analyseQafeehCore (s : Str) : Option QafeehAnalysis :=
  let cs := strToChars s
  let scan := qafScanAux cs cs.length [] 0
  let qText := pyReplace ['#'] [' '] scan.reverse.flatten
  let cs2 := strToChars qText
  let comp := qafCompAux cs2 cs2.length 1
  let alphas := comp.1.reverse
  let haraks := comp.2.1.reverse
  let wordPos := comp.2.2.reverse
  match alphas.head? with
  | none => none
  | some a0 =>
    let startIdx := if a0 = ([] : Str) then 1 else 0
    let qafeehText := ((alphas.zip haraks).drop startIdx).foldl
      (fun acc p => acc ++ p.1 ++ p.2) []
    match qafClassify alphas haraks with
    | none => none
    | some cls =>
      let isF := cls.1
      let raweePos := cls.2.1
      let rawee := cls.2.2.1
      let wasel := cls.2.2.2.1
      let kharoog := cls.2.2.2.2
      let rt := qafRedf alphas haraks wordPos raweePos
      let redf := rt.1
      let ta2ses := rt.2.1
      let dakheel := rt.2.2
      some { text := pyReplace ['#'] [' '] qafeehText,
             qtype := qafTypeDesc isF kharoog redf ta2ses,
             rawee := rawee, wasel := wasel, kharoog := kharoog,
             ta2ses := ta2ses, dakheel := dakheel, redf := redf, errors := none }

/-- `_analyse_qafeeh`: normalise the verse as an ʿajuz, strip the word
boundaries, and analyse the rhyme components. -/
def analyseQafeeh (ajez : Str) : Option QafeehAnalysis :=
  analyseQafeehCore ((normalizeB ajez true).filter (fun c => c ≠ '#' ∧ c ≠ ' '))

/-! ## `analyze_rhyme_patterns` -/

/-- An entry of the rhyme-pattern result list: the per-verse `'empty'`
marker or an analysis. -/
inductive RhymeEntry where
  | emptyMark : RhymeEntry
  | analysis : QafeehAnalysis → RhymeEntry
deriving DecidableEq, Repr

/-- The literal `'empty'` marker of the source. -/
def emptyLit : Str := "empty".toList

/-- The error list that comparing a verse rhyme against the poem baseline
produces (the comparison block of `analyze_rhyme_patterns`). -/
def compareQafeeh (base cur : QafeehAnalysis) : List String :=
  if cur.rawee ≠ base.rawee then
    ["قافية هذا البيت مختلفة كليَّاً عن قافية القصيدة و ذلك <b>لاختلاف الرَّويِّ</b> بين القافيتين."]
  else if cur.wasel ≠ base.wasel then
    if ¬ ((cur.wasel = ['ا', sukunC] ∧ base.wasel = ['ى', sukunC]) ∨
          (cur.wasel = ['ى', sukunC] ∧ base.wasel = ['ا', sukunC])) then
      ["قافية هذا البيت مختلفة عن قافية القصيدة بسبب <b>اختلاف حرف الوصل</b>."]
    else []
  else
    let e1 : List String :=
      if cur.ta2ses ≠ [] ∧ base.ta2ses = [] then
        ["لقد قمت باستعمال ألف التأسيس في قافية هذا البيت في حين أنَّ قافية القصيدة ليست مؤسَّسة و هذا عيب من عيوب القافية يعرف بـ<b>سناد التأسيس</b>."]
      else if cur.ta2ses = [] ∧ base.ta2ses ≠ [] then
        ["يجب أن تُؤَسَّسَ قافية هذا البيت بألف التأسيس !"]
      else []
    let e2 : List String :=
      if cur.redf ≠ [] ∧ base.redf = [] then
        ["لقد قمت باستعمال ردف للقافية في قافية هذا البيت في حين أنَّ قافية القصيدة ليست مردفة و هذا عيب من عيوب القافية يعرف بـ<b>سناد الرِّدف</b>."]
      else if cur.redf = [] ∧ base.redf ≠ [] then
        ["يجب أن تُرْدِفَ قافية هذا البيت بحرف الرِّدف المناسب قبل الرَّوي مباشرةً !"]
      else if cur.redf ≠ [] ∧ base.redf ≠ [] then
        if (cur.redf ∈ [['ي', sukunC], ['و', sukunC]] ∧ base.redf ∈ [['ا'], ['ا', sukunC]]) ∨
            (cur.redf ∈ [['ا', sukunC], ['ا']] ∧ base.redf ∈ [['و', sukunC], ['ي', sukunC]]) then
          ["لا يمكن أن تجتمع الياء أو الواو كردف مع الألف كردف !"]
        else []
      else []
    let e3 : List String :=
      if cur.rawee ≠ base.rawee then
        ["الخروج مختلف في البيت الحالي عن الخروج في قافية القصيدة"]
      else []
    e1 ++ e2 ++ e3

/-- One verse of the per-verse loop after the baseline (`tail` is the
result on the remaining verses; `none` propagates an exception of
`_analyse_qafeeh`). -/
def arpRestStep (base : QafeehAnalysis) (v : Str) (tail : Option (List RhymeEntry)) :
    Option (List RhymeEntry) :=
  if v ≠ emptyLit then
    match analyseQafeeh v with
    | none => none
    | some cur =>
      let cur := { cur with errors := some (compareQafeeh base cur) }
      tail.map (fun l => RhymeEntry.analysis cur :: l)
  else tail.map (fun l => RhymeEntry.emptyMark :: l)

/-- The per-verse loop after the baseline verse. -/
def arpRest (base : QafeehAnalysis) : List Str → Option (List RhymeEntry)
  | [] => some []
  | v :: rest => arpRestStep base v (arpRest base rest)

/-- The leading-empties loop of `analyze_rhyme_patterns`. -/
def arpAux : List Str → Option (Sum Unit (List RhymeEntry))
  | [] => some (Sum.inl ())
  | v :: rest =>
    if v = emptyLit then
      (arpAux rest).map (fun r =>
        match r with
        | Sum.inl u => Sum.inl u
        | Sum.inr l => Sum.inr (RhymeEntry.emptyMark :: l))
    else
      match analyseQafeeh v with
      | none => none
      | some base =>
        (arpRest base rest).map (fun l => Sum.inr (RhymeEntry.analysis base :: l))

/-- `analyze_rhyme_patterns`: `some (Sum.inl ())` is the `'emptyAll'`
marker, `some (Sum.inr l)` the aligned result list, `none` an uncaught
exception inside `_analyse_qafeeh`. -/
def analyzeRhymePatterns (verses : List Str) : Option (Sum Unit (List RhymeEntry)) :=
  arpAux verses

/-! ## The wizard validator I -/

/-- `_get_char_name`. -/
def getCharName (n : Nat) : String :=
  if n = 1 then "الأوّل" else if n = 2 then "الثّاني" else if n = 3 then "الثّالث"
  else if n = 4 then "الرّابع" else if n = 5 then "الخامس" else if n = 6 then "السّادس"
  else if n = 7 then "السّابع" else if n = 8 then "الثّامن" else if n = 9 then "التّاسع"
  else if n = 10 then "العاشر" else "رقم " ++ toString n

/-- `_get_state_name`. -/
def getStateName (n : Nat) : String :=
  if n = 1 then "الأولى" else if n = 2 then "الثّانية" else if n = 3 then "الثّالثة"
  else if n = 4 then "الرّابعة" else if n = 5 then "الخامسة" else if n = 6 then "السّادسة"
  else "رقم " ++ toString n

/-- The inner zip loop of `_compare_with_tafeela` over one alternative:
`lastIdx` is the index of the last zipped pair, `tooMsg` the diagnostic for
reaching it without resolving (too short or too long). -/
def cwtLoop (stateNo : Nat) (name : String) (lastIdx : Nat) (tooMsg : String) :
    Nat → Nat → List (Char × Char) → List String
  | _, _, [] => []
  | pos, j, (c, e) :: rest =>
    let pos2 := if c = 'U' then pos + 1 else if c = '-' then pos + 2 else pos
    if c = e then cwtLoop stateNo name lastIdx tooMsg pos2 (j + 1) rest
    else if c = 'U' then
      ["<b> الصورة" ++ getStateName stateNo ++ " (" ++ name ++ ") :</b>" ++
       "يجب تسكين الحرف " ++ getCharName (pos2 + 1) ++ " " ++
       "كي نحصل على تقطيع متوافق مع هذه الصورة"]
    else if c = '-' then
      ["<b> الصورة" ++ getStateName stateNo ++ " (" ++ name ++ ") :</b>" ++
       "يجب أن يكون الحرف " ++ getCharName pos2 ++ " " ++
       "متحركاً كي نحصل على تقطيع متوافق مع هذه الصورة"]
    else if j = lastIdx then
      ["<b> الصورة" ++ getStateName stateNo ++ " (" ++ name ++ ") :</b>" ++ tooMsg]
    else cwtLoop stateNo name lastIdx tooMsg pos2 (j + 1) rest

/-- `_compare_with_tafeela`: one diagnostic (at most) per expected
alternative. -/
def compareWithTafeela (current : Str) (pats : List Str) (names : List String) :
    List String :=
  ((pats.zip names).enum.map (fun pn =>
    let stateNo := pn.1 + 1
    let pat := pn.2.1
    let name := pn.2.2
    if pat.length ≥ current.length then
      cwtLoop stateNo name (current.length - 1)
        "التقطيع الحالي لهذه التفعيلة أقصر وزنيّاً من هذه الصورة" 0 0 (current.zip pat)
    else
      cwtLoop stateNo name (pat.length - 1)
        "التقطيع الحالي لهذه التفعيلة أطول وزنيّاً من هذه الصورة" 0 0 (current.zip pat))).flatten

/-- One report row of the wizard analyses. -/
structure FootReport where
  status : String
  taf3eela : String
  chars : Str
  errs : List String
deriving DecidableEq, Repr

/-- The number of letters a matched skeleton prefix spans:
`sum (2 if c == '-' else 1) * 2` of the source. -/
def wizardCharLength (status : Str) : Nat :=
  (status.foldl (fun acc c => acc + (if c = '-' then 2 else 1)) 0) * 2

/-- The name-search loop of the wizard bodies: the first pattern equal to
`status` contributes `names[k]` (an IndexError — `none` — when `names` is
shorter); with no such pattern the name stays `''`. -/
def wizardFindNameAux (names : List String) : List Str → Str → Nat → Option String
  | [], _, _ => some ""
  | p :: ps, status, k =>
    if p = status then names[k]?
    else wizardFindNameAux names ps status (k + 1)

/-- Post-processing of a consumed letter span (alif maqsura and ta marbuta
get a trailing space for display). -/
def wizardSpan (chars : Str) (cl : Nat) : Str :=
  pyReplace ['ة'] ['ة', ' '] (pyReplace ['ى'] ['ى', ' '] (chars.take cl))

/-- The for-loop over the expected patterns looking for an `ok` match.
Outer `Option` is an exception; the inner `Option` is whether some
alternative matched (`is_ok`). -/
def wizardTryPats (pats : List Str) (names : List String) (rokaz chars : Str) :
    List Str → Option (Option (FootReport × Str × Str))
  | [] => some none
  | pat :: rest =>
    let status := rokaz.take pat.length
    match wizardFindNameAux names pats status 0 with
    | none => none
    | some nm =>
      if pat = status then
        let cl := wizardCharLength status
        some (some ({ status := "ok", taf3eela := nm, chars := wizardSpan chars cl,
                      errs := [] },
                    rokaz.drop pat.length, chars.drop cl))
      else wizardTryPats pats names rokaz chars rest

/-- One iteration of the `wizard_analysis_free_verse` while body: the
report and the advanced (rokaz, chars); `none` is an IndexError (either in
the name search or `patterns[0]` on an empty pattern list). -/
def wizardStep (pats : List Str) (names : List String) (rokaz chars : Str) :
    Option (FootReport × Str × Str) :=
  match wizardTryPats pats names rokaz chars pats with
  | none => none
  | some (some r) => some r
  | some none =>
    match pats.head? with
    | none => none
    | some p0 =>
      let status := rokaz.take p0.length
      match wizardFindNameAux names pats status 0 with
      | none => none
      | some nm =>
        let cl := wizardCharLength status
        some ({ status := "err", taf3eela := nm, chars := wizardSpan chars cl,
                errs := compareWithTafeela status pats names },
              rokaz.drop p0.length, chars.drop cl)

/-- Outcome of the wizard loop: the report list, an uncaught exception, or
exhausted fuel (the modelling artefact for the unbounded while). -/
inductive LoopOut where
  | out : List FootReport → LoopOut
  | err : LoopOut
  | fuelOut : LoopOut
deriving DecidableEq, Repr

/-- The while loop of `wizard_analysis_free_verse`, fuelled. -/
def wizardLoopF (pats : List Str) (names : List String) : Nat → Str → Str → LoopOut
  | _, [], _ => LoopOut.out []
  | 0, _ :: _, _ => LoopOut.fuelOut
  | fuel + 1, r :: rz, chars =>
    match wizardStep pats names (r :: rz) chars with
    | none => LoopOut.err
    | some rep =>
      match wizardLoopF pats names fuel rep.2.1 rep.2.2 with
      | LoopOut.out l => LoopOut.out (rep.1 :: l)
      | e => e

/-- `wizard_analysis_free_verse`; the fuel `rokaz.length` is sufficient by
the termination theorem below. -/
def wizardAnalysisFreeVerse (text : Str) (rulePats : List Str)
    (ruleNames : List String) : LoopOut :=
  let processed := (normalizeB text false).filter (fun c => c ≠ '#' ∧ c ≠ ' ')
  let chars := getCharsOnly processed
  let harakat := getHarakatOnly processed
  let rokaz := getRokazKhoutayt harakat
  wizardLoopF rulePats ruleNames rokaz.length rokaz chars



/-! ## Analysis predicates on regexes (used by the claim proofs) -/

/-- Can the regex match the empty string? -/
def reNullable : RE → Bool
  | .eps => true
  | .chr _ => false
  | .cls _ => false
  | .seq a b => reNullable a && reNullable b
  | .alt a b => reNullable a || reNullable b
  | .star _ => true
  | .grp _ a => reNullable a

/-- A lower bound on the length of any string the regex matches. -/
def reMinLen : RE → Nat
  | .eps => 0
  | .chr _ => 1
  | .cls _ => 1
  | .seq a b => reMinLen a + reMinLen b
  | .alt a b => min (reMinLen a) (reMinLen b)
  | .star _ => 0
  | .grp _ a => reMinLen a

/-- Syntactic check that the last character of every non-empty match
satisfies `P`. -/
def reEndsOnly (P : Char → Bool) : RE → Bool
  | .eps => true
  | .chr c => P c
  | .cls cs => cs.all P
  | .seq a b =>
    if reNullable b then reEndsOnly P a && reEndsOnly P b else reEndsOnly P b
  | .alt a b => reEndsOnly P a && reEndsOnly P b
  | .star a => reEndsOnly P a
  | .grp _ a => reEndsOnly P a

/-- End-to-end match of an anchored meter pattern: some backtracking result
consumes the whole `%`-wrapped skeleton. -/
def anchoredFull (p : String) (s : Str) : Prop :=
  ∃ caps, (([] : Str), caps) ∈
    RE.run (runFuel (compileRE p) ('%' :: (s ++ ['%'])))
      (compileRE p) ('%' :: (s ++ ['%']))

/-! ## Specification-side definitions for the skeleton map (claim C1) -/

/-- The skeleton map exactly as claim C1 words it: each fatḥa-sukun pair is
one `-`, each remaining fatḥa is `U`, and each remaining sukun — also one
not preceded by a fatḥa — is `-`; other characters pass through. -/
def skeletonSpecC1 : Str → Str
  | [] => []
  | [a] => if a = fathaC then ['U'] else if a = sukunC then ['-'] else [a]
  | a :: b :: rest =>
    if a = fathaC ∧ b = sukunC then '-' :: skeletonSpecC1 rest
    else if a = fathaC then 'U' :: skeletonSpecC1 (b :: rest)
    else if a = sukunC then '-' :: skeletonSpecC1 (b :: rest)
    else a :: skeletonSpecC1 (b :: rest)

/-- The skeleton map as the code implements it: as claim C1, except that a
sukun that is not the second element of a fatḥa-sukun pair maps to `U`. -/
def skeletonAmendedC1 : Str → Str
  | [] => []
  | [a] => if a = fathaC then ['U'] else if a = sukunC then ['U'] else [a]
  | a :: b :: rest =>
    if a = fathaC ∧ b = sukunC then '-' :: skeletonAmendedC1 rest
    else if a = fathaC then 'U' :: skeletonAmendedC1 (b :: rest)
    else if a = sukunC then 'U' :: skeletonAmendedC1 (b :: rest)
    else a :: skeletonAmendedC1 (b :: rest)

/-- The leftmost non-overlapping fatḥa-sukun pairing (the first `replace`
of `_get_rokaz_khoutayt`), written as a plain recursion. -/
def pairDashSpec : Str → Str
  | a :: b :: rest =>
    if a = fathaC ∧ b = sukunC then '-' :: pairDashSpec rest
    else a :: pairDashSpec (b :: rest)
  | l => l



/-! # Theorems

Support lemmas first, then one theorem per claim (with witnesses and
counterexamples where the claim's status needs them). -/

/-- A regex that cannot match the empty string only matches non-empty
strings. -/
theorem reNullable_minLen : ∀ re : RE, reNullable re = false → 1 ≤ reMinLen re := by
  intro re
  induction re with
  | eps => intro h; simp [reNullable] at h
  | chr c => intro _; simp [reMinLen]
  | cls cs => intro _; simp [reMinLen]
  | seq a b iha ihb =>
    intro h
    rw [reNullable, Bool.and_eq_false_iff] at h
    rw [reMinLen]
    rcases h with h | h
    · have := iha h; omega
    · have := ihb h; omega
  | alt a b iha ihb =>
    intro h
    rw [reNullable, Bool.or_eq_false_iff] at h
    rw [reMinLen]
    have h1 := iha h.1
    have h2 := ihb h.2
    omega
  | star a ih => intro h; simp [reNullable] at h
  | grp n a ih => intro h; rw [reMinLen]; exact ih (by rw [reNullable] at h; exact h)

/-- Shape of every backtracking result of the engine: the remainder is a
suffix of the input, the consumed prefix is at least `reMinLen` long, and
(under `reEndsOnly P`) a non-empty consumed prefix ends in a character
satisfying `P`. -/
theorem RE.run_shape (P : Char → Bool) :
    ∀ (fuel : Nat) (re : RE) (s rem : Str) (caps : Caps),
      (rem, caps) ∈ RE.run fuel re s →
      ∃ t, s = t ++ rem ∧ reMinLen re ≤ t.length ∧
        (reEndsOnly P re = true → t = [] ∨ ∃ t0 x, t = t0 ++ [x] ∧ P x = true) := by
  intro fuel
  induction fuel with
  | zero => intro re s rem caps h; simp [RE.run] at h
  | succ fuel ih =>
    intro re s rem caps h
    cases re with
    | eps =>
      simp only [RE.run, List.mem_singleton, Prod.mk.injEq] at h
      exact ⟨[], by simp [h.1], by simp [reMinLen], fun _ => Or.inl rfl⟩
    | chr c =>
      cases s with
      | nil => simp [RE.run] at h
      | cons x r =>
        simp only [RE.run] at h
        by_cases hx : x = c
        · rw [if_pos hx] at h
          simp only [List.mem_singleton, Prod.mk.injEq] at h
          refine ⟨[x], by simp [h.1], by simp [reMinLen], fun hE => Or.inr ⟨[], x, by simp, ?_⟩⟩
          rw [reEndsOnly] at hE
          rw [hx]; exact hE
        · rw [if_neg hx] at h; simp at h
    | cls cs =>
      cases s with
      | nil => simp [RE.run] at h
      | cons x r =>
        simp only [RE.run] at h
        by_cases hx : x ∈ cs
        · rw [if_pos hx] at h
          simp only [List.mem_singleton, Prod.mk.injEq] at h
          refine ⟨[x], by simp [h.1], by simp [reMinLen], fun hE => Or.inr ⟨[], x, by simp, ?_⟩⟩
          rw [reEndsOnly, List.all_eq_true] at hE
          exact hE x hx
        · rw [if_neg hx] at h; simp at h
    | seq a b =>
      simp only [RE.run, List.mem_flatMap, List.mem_map] at h
      obtain ⟨p, hp, q, hq, heq⟩ := h
      have hrem : rem = q.1 := by
        have := congrArg Prod.fst heq; simpa using this.symm
      obtain ⟨t1, hs1, hm1, he1⟩ := ih a s p.1 p.2 hp
      obtain ⟨t2, hs2, hm2, he2⟩ := ih b p.1 q.1 q.2 hq
      refine ⟨t1 ++ t2, ?_, ?_, ?_⟩
      · rw [hs1, hs2, hrem, List.append_assoc]
      · rw [reMinLen]; simp only [List.length_append]; omega
      · intro hE
        rw [reEndsOnly] at hE
        by_cases hb : reNullable b
        · rw [if_pos hb, Bool.and_eq_true] at hE
          rcases he2 hE.2 with h2 | ⟨t0, x, ht2, hx⟩
          · subst h2
            rcases he1 hE.1 with h1 | ⟨t0, x, ht1, hx⟩
            · subst h1; exact Or.inl rfl
            · exact Or.inr ⟨t0, x, by rw [ht1]; simp, hx⟩
          · exact Or.inr ⟨t1 ++ t0, x, by rw [ht2, ← List.append_assoc], hx⟩
        · rw [if_neg hb] at hE
          have hmin := reNullable_minLen b (by revert hb; cases reNullable b <;> simp)
          rcases he2 hE with h2 | ⟨t0, x, ht2, hx⟩
          · subst h2; simp at hm2; omega
          · exact Or.inr ⟨t1 ++ t0, x, by rw [ht2, ← List.append_assoc], hx⟩
    | alt a b =>
      simp only [RE.run, List.mem_append] at h
      rw [reMinLen]
      rcases h with h | h
      · obtain ⟨t, hs, hm, he⟩ := ih a s rem caps h
        refine ⟨t, hs, by omega, fun hE => ?_⟩
        rw [reEndsOnly, Bool.and_eq_true] at hE
        exact he hE.1
      · obtain ⟨t, hs, hm, he⟩ := ih b s rem caps h
        have : min (reMinLen a) (reMinLen b) ≤ reMinLen b := Nat.min_le_right _ _
        refine ⟨t, hs, by omega, fun hE => ?_⟩
        rw [reEndsOnly, Bool.and_eq_true] at hE
        exact he hE.2
    | grp n a =>
      simp only [RE.run, List.mem_map] at h
      obtain ⟨p, hp, heq⟩ := h
      have hrem : rem = p.1 := by
        have := congrArg Prod.fst heq; simpa using this.symm
      obtain ⟨t, hs, hm, he⟩ := ih a s p.1 p.2 hp
      exact ⟨t, by rw [hrem]; exact hs, by rw [reMinLen]; exact hm,
        fun hE => he (by rw [reEndsOnly] at hE; exact hE)⟩
    | star a =>
      simp only [RE.run, List.mem_append, List.mem_flatMap, List.mem_filter,
        List.mem_map, List.mem_singleton, Prod.mk.injEq, decide_eq_true_eq] at h
      rcases h with ⟨p, ⟨hp, hplen⟩, q, hq, heq⟩ | ⟨h1, _⟩
      · have hrem : rem = q.1 := heq.1.symm
        obtain ⟨t1, hs1, hm1, he1⟩ := ih a s p.1 p.2 hp
        obtain ⟨t2, hs2, _, he2⟩ := ih (RE.star a) p.1 q.1 q.2 hq
        refine ⟨t1 ++ t2, by rw [hs1, hs2, hrem, List.append_assoc],
          by rw [reMinLen]; omega, ?_⟩
        intro hE
        rcases he2 hE with h2 | ⟨t0, x, ht2, hx⟩
        · subst h2
          have ht1 : t1 ≠ [] := by
            intro hnil
            have hlen : s.length = p.1.length := by rw [hs1, hnil]; simp
            omega
          rcases he1 (by rw [reEndsOnly] at hE; exact hE) with h1 | ⟨t0, x, ht1', hx⟩
          · exact absurd h1 ht1
          · exact Or.inr ⟨t0, x, by rw [ht1']; simp, hx⟩
        · exact Or.inr ⟨t1 ++ t0, x, by rw [ht2, ← List.append_assoc], hx⟩
      · exact ⟨[], by simp [h1.symm], by simp [reMinLen], fun _ => Or.inl rfl⟩



/-- With enough fuel the fuel argument of `pyReplaceAux` is irrelevant. -/
theorem pyReplaceAux_fuel (pat rep : Str) (hpat : pat ≠ []) :
    ∀ f1 f2 s, s.length ≤ f1 → s.length ≤ f2 →
      pyReplaceAux pat rep f1 s = pyReplaceAux pat rep f2 s := by
  intro f1
  induction f1 with
  | zero =>
    intro f2 s h1 _
    have hs : s = [] := List.eq_nil_of_length_eq_zero (by omega)
    subst hs
    cases f2 <;> simp [pyReplaceAux]
  | succ f1 ih =>
    intro f2 s h1 h2
    cases s with
    | nil => cases f2 <;> simp [pyReplaceAux]
    | cons c rest =>
      cases f2 with
      | zero => simp at h2
      | succ f2 =>
        simp only [pyReplaceAux]
        have hplen : 1 ≤ pat.length := by
          cases pat with
          | nil => exact absurd rfl hpat
          | cons _ _ => simp
        by_cases hp : pat.isPrefixOf (c :: rest)
        · rw [if_pos hp, if_pos hp]
          congr 1
          apply ih
          · simp only [List.length_drop, List.length_cons] at *
            omega
          · simp only [List.length_drop, List.length_cons] at *
            omega
        · rw [if_neg hp, if_neg hp]
          congr 1
          apply ih
          · simp only [List.length_cons] at h1; omega
          · simp only [List.length_cons] at h2; omega

/-- A single-character replace is a map. -/
theorem pyReplaceAux_single (a b : Char) :
    ∀ fuel s, s.length ≤ fuel →
      pyReplaceAux [a] [b] fuel s = s.map (fun c => if c = a then b else c) := by
  intro fuel
  induction fuel with
  | zero =>
    intro s h
    have hs : s = [] := List.eq_nil_of_length_eq_zero (by omega)
    subst hs; simp [pyReplaceAux]
  | succ fuel ih =>
    intro s h
    cases s with
    | nil => simp [pyReplaceAux]
    | cons c rest =>
      simp only [pyReplaceAux, List.map_cons]
      by_cases hca : c = a
      · have hp : [a].isPrefixOf (c :: rest) = true := by
          simp [List.isPrefixOf, hca]
        rw [if_pos hp]
        have hdrop : List.drop [a].length (c :: rest) = rest := rfl
        rw [hdrop, if_pos hca, ih rest (by simp at h; omega)]
        simp
      · have hp : ¬ ([a].isPrefixOf (c :: rest) = true) := by
          simp [List.isPrefixOf]
          intro hac
          exact absurd hac.symm hca
        rw [if_neg hp, if_neg hca, ih rest (by simp at h; omega)]

/-- The fatḥa-sukun pair replace is the leftmost non-overlapping pairing. -/
theorem pyReplaceAux_pair :
    ∀ fuel s, s.length ≤ fuel →
      pyReplaceAux [fathaC, sukunC] ['-'] fuel s = pairDashSpec s := by
  intro fuel
  induction fuel with
  | zero =>
    intro s h
    have hs : s = [] := List.eq_nil_of_length_eq_zero (by omega)
    subst hs; simp [pyReplaceAux, pairDashSpec]
  | succ fuel ih =>
    intro s h
    cases s with
    | nil => simp [pyReplaceAux, pairDashSpec]
    | cons a rest =>
      cases rest with
      | nil =>
        have hp : ¬ ([fathaC, sukunC].isPrefixOf [a] = true) := by
          simp [List.isPrefixOf]
        simp only [pyReplaceAux, if_neg hp, pairDashSpec]
      | cons b rest2 =>
        simp only [List.length_cons] at h
        by_cases hab : a = fathaC ∧ b = sukunC
        · have hp : [fathaC, sukunC].isPrefixOf (a :: b :: rest2) = true := by
            simp [List.isPrefixOf, hab.1, hab.2]
          simp only [pyReplaceAux, if_pos hp, pairDashSpec, if_pos hab]
          have hdrop : List.drop [fathaC, sukunC].length (a :: b :: rest2) = rest2 := rfl
          rw [hdrop, ih rest2 (by omega)]
          simp
        · have hp : ¬ ([fathaC, sukunC].isPrefixOf (a :: b :: rest2) = true) := by
            simp only [List.isPrefixOf, Bool.and_eq_true, beq_iff_eq]
            intro hc
            exact hab ⟨hc.1.symm, hc.2.1.symm⟩
          simp only [pyReplaceAux, if_neg hp, pairDashSpec, if_neg hab]
          rw [ih (b :: rest2) (by simp; omega)]

/-- `_get_rokaz_khoutayt` computes the amended skeleton map of claim C1:
fatḥa-sukun pairs (leftmost first) become `-`, remaining fatḥas and
remaining sukuns become `U`. -/
theorem getRokazKhoutayt_eq_amended (h : Str) :
    getRokazKhoutayt h = skeletonAmendedC1 h := by
  rw [getRokazKhoutayt, pyReplace, pyReplace, pyReplace,
    pyReplaceAux_pair h.length h le_rfl,
    pyReplaceAux_single fathaC 'U' _ _ le_rfl,
    pyReplaceAux_single sukunC 'U' _ _ le_rfl, List.map_map]
  induction h using pairDashSpec.induct with
  | case1 a b rest hab ih =>
    simp only [pairDashSpec, if_pos hab, List.map_cons, skeletonAmendedC1, ih]
    congr 1
  | case2 a b rest hab ih =>
    simp only [pairDashSpec, if_neg hab, List.map_cons, skeletonAmendedC1, ih]
    by_cases ha : a = fathaC
    · rw [if_pos ha]
      congr 1
      rw [ha]; decide
    · by_cases ha2 : a = sukunC
      · rw [if_neg ha, if_pos ha2]
        congr 1
        rw [ha2]; decide
      · rw [if_neg ha, if_neg ha2]
        congr 1
        simp [Function.comp, if_neg ha, if_neg ha2]
  | case3 l hl =>
    cases l with
    | nil => simp [pairDashSpec, skeletonAmendedC1]
    | cons a rest =>
      cases rest with
      | nil =>
        simp only [pairDashSpec, List.map_cons, List.map_nil, skeletonAmendedC1]
        by_cases ha : a = fathaC
        · rw [if_pos ha]
          congr 1
          rw [ha]; decide
        · by_cases ha2 : a = sukunC
          · rw [if_neg ha, if_pos ha2]
            congr 1
            rw [ha2]; decide
          · rw [if_neg ha, if_neg ha2]
            congr 1
            simp [Function.comp, if_neg ha, if_neg ha2]
      | cons b rest2 => exact absurd rfl (hl a b rest2)

/-- Splitting around the single `%` boundary: if the core is `%`-free, a
decomposition `u ++ '%' :: rem = s ++ ['%']` forces `rem = []`. -/
theorem pct_split : ∀ s u rem : Str, '%' ∉ s → u ++ '%' :: rem = s ++ ['%'] → rem = [] := by
  intro s
  induction s with
  | nil =>
    intro u rem _ he
    have hlen := congrArg List.length he
    simp at hlen
    have : rem.length = 0 := by omega
    exact List.eq_nil_of_length_eq_zero this
  | cons c s ih =>
    intro u rem h he
    cases u with
    | nil =>
      simp only [List.nil_append, List.cons_append, List.cons.injEq] at he
      exact absurd (he.1 ▸ List.mem_cons_self c s) h
    | cons d u2 =>
      simp only [List.cons_append, List.cons.injEq] at he
      exact ih u2 rem (fun hm => h (List.mem_cons_of_mem c hm)) he.2

/-- A prefix of the `%`-wrapped skeleton that is at least two characters
long and ends in `%` is the whole wrapped skeleton. -/
theorem wrapped_prefix_whole (s t rem : Str) (hs : '%' ∉ s)
    (heq : '%' :: (s ++ ['%']) = t ++ rem) (hlen : 2 ≤ t.length)
    (hend : ∃ t0 x, t = t0 ++ [x] ∧ (x == '%') = true) : rem = [] := by
  obtain ⟨t0, x, ht, hx⟩ := hend
  have hx2 : x = '%' := by simpa using hx
  subst hx2 ht
  cases t0 with
  | nil => simp at hlen
  | cons c t1 =>
    simp only [List.cons_append, List.cons.injEq] at heq
    obtain ⟨_, heq2⟩ := heq
    exact pct_split s t1 rem hs (by rw [heq2]; simp)

/-- `re.match` of an anchored table pattern against the wrapped skeleton is
exactly an end-to-end match, for patterns that only stop at `%` and need at
least two characters. -/
theorem reMatches_iff_anchoredFull (p : String) (s : Str) (hs : '%' ∉ s)
    (hE : reEndsOnly (fun c => c == '%') (compileRE p) = true)
    (hm : 2 ≤ reMinLen (compileRE p)) :
    reMatches p ('%' :: (s ++ ['%'])) = true ↔ anchoredFull p s := by
  constructor
  · intro h
    rw [reMatches, Bool.not_eq_true', List.isEmpty_eq_false_iff_exists_mem] at h
    obtain ⟨r, hr⟩ := h
    obtain ⟨t, hteq, htlen, htend⟩ :=
      RE.run_shape (fun c => c == '%') _ _ _ r.1 r.2 (by simpa using hr)
    have hrem : r.1 = [] := by
      rcases htend hE with ht0 | hend2
      · subst ht0; simp at htlen; omega
      · exact wrapped_prefix_whole s t r.1 hs hteq (by omega) hend2
    have hr2 : ((r.1, r.2) : Str × Caps) ∈
        RE.run (runFuel (compileRE p) ('%' :: (s ++ ['%'])))
          (compileRE p) ('%' :: (s ++ ['%'])) := by simpa using hr
    rw [hrem] at hr2
    exact ⟨r.2, hr2⟩
  · intro ⟨caps, hmem⟩
    rw [reMatches, Bool.not_eq_true', List.isEmpty_eq_false_iff_exists_mem]
    exact ⟨_, hmem⟩

/-- The table facts claim C2 needs of every meter pattern: matches end only
at the closing `%`, are at least two characters long, and no meter is named
`unknown`. -/
theorem meter_table_facts :
    ∀ e ∈ meterPatternsTable, reEndsOnly (fun c => c == '%') (compileRE e.2) = true ∧
      2 ≤ reMinLen (compileRE e.2) ∧ e.1 ≠ "unknown" := by decide

/-- The first-match structure of the `_get_ba7er` loop: a result other than
`unknown` is the name of a matching entry all of whose predecessors fail. -/
theorem getBa7erAux_mem (s : Str) :
    ∀ tbl : List (String × String), getBa7erAux s tbl ≠ "unknown" →
      ∃ i : Fin tbl.length, (tbl.get i).1 = getBa7erAux s tbl ∧
        reMatches (tbl.get i).2 s = true ∧
        ∀ j : Fin tbl.length, (j : Nat) < (i : Nat) → reMatches (tbl.get j).2 s = false := by
  intro tbl
  induction tbl with
  | nil => intro h; simp [getBa7erAux] at h
  | cons e rest ih =>
    intro h
    by_cases he : reMatches e.2 s = true
    · refine ⟨⟨0, by simp⟩, ?_, ?_, ?_⟩
      · simp [getBa7erAux, he]
      · simpa using he
      · intro j hj; simp at hj
    · have hr : getBa7erAux s (e :: rest) = getBa7erAux s rest := by
        simp [getBa7erAux, he]
      rw [hr] at h ⊢
      obtain ⟨i, h1, h2, h3⟩ := ih h
      refine ⟨⟨(i : Nat) + 1, by simpa using Nat.succ_lt_succ i.isLt⟩,
        by simpa using h1, by simpa using h2, ?_⟩
      intro j hj
      match j with
      | ⟨0, _⟩ => simpa using (Bool.not_eq_true _).mp he
      | ⟨j2 + 1, hj2⟩ =>
        have := h3 ⟨j2, by simp at hj2; omega⟩ (by simp at hj ⊢; omega)
        simpa using this

/-- The `_get_ba7er` loop yields `unknown` exactly when no pattern of the
table matches (using that no table name is the string `unknown`). -/
theorem getBa7erAux_unknown (s : Str) :
    ∀ tbl : List (String × String), (∀ e ∈ tbl, e.1 ≠ "unknown") →
      (getBa7erAux s tbl = "unknown" ↔ ∀ e ∈ tbl, reMatches e.2 s = false) := by
  intro tbl
  induction tbl with
  | nil => intro _; simp [getBa7erAux]
  | cons e rest ih =>
    intro hn
    by_cases he : reMatches e.2 s = true
    · constructor
      · intro h
        rw [getBa7erAux, if_pos he] at h
        exact absurd h (hn e (List.mem_cons_self e rest))
      · intro h
        exact absurd (h e (List.mem_cons_self e rest)) (by simp [he])
    · rw [getBa7erAux, if_neg he]
      rw [ih (fun x hx => hn x (List.mem_cons_of_mem e hx))]
      constructor
      · intro h x hx
        rcases List.mem_cons.mp hx with hx1 | hx2
        · subst hx1; exact (Bool.not_eq_true _).mp he
        · exact h x hx2
      · intro h x hx
        exact h x (List.mem_cons_of_mem e hx)

/-- C2: whenever the meter matcher `_get_ba7er` returns a meter other than
`unknown`, that meter's anchored pattern matches the skeleton end-to-end,
it is the first entry of the pattern table (in declaration order) that
matches, and `unknown` is returned exactly when no pattern of the table
matches the skeleton. -/
theorem c2_meter_matcher (s : Str) (hs : '%' ∉ s) :
    (getBa7er s ≠ "unknown" →
      ∃ i : Fin meterPatternsTable.length,
        (meterPatternsTable.get i).1 = getBa7er s ∧
        anchoredFull (meterPatternsTable.get i).2 s ∧
        ∀ j : Fin meterPatternsTable.length, (j : Nat) < (i : Nat) →
          ¬ anchoredFull (meterPatternsTable.get j).2 s) ∧
    (getBa7er s = "unknown" ↔ ∀ e ∈ meterPatternsTable, ¬ anchoredFull e.2 s) := by
  have hiff : ∀ e ∈ meterPatternsTable,
      (reMatches e.2 ('%' :: (s ++ ['%'])) = true ↔ anchoredFull e.2 s) := by
    intro e he
    obtain ⟨h1, h2, _⟩ := meter_table_facts e he
    exact reMatches_iff_anchoredFull e.2 s hs h1 h2
  constructor
  · intro h
    rw [getBa7er] at h
    obtain ⟨i, h1, h2, h3⟩ := getBa7erAux_mem ('%' :: (s ++ ['%'])) meterPatternsTable h
    rw [getBa7er]
    refine ⟨i, h1, (hiff _ (meterPatternsTable.get_mem i.1 i.2)).mp h2, ?_⟩
    intro j hj hcon
    have hm := (hiff _ (meterPatternsTable.get_mem j.1 j.2)).mpr hcon
    rw [h3 j hj] at hm
    exact Bool.false_ne_true hm
  · rw [getBa7er,
      getBa7erAux_unknown _ _ (fun e he => (meter_table_facts e he).2.2)]
    constructor
    · intro h e he hcon
      have hm := (hiff e he).mpr hcon
      rw [h e he] at hm
      exact Bool.false_ne_true hm
    · intro h e he
      rcases Bool.eq_false_or_eq_true (reMatches e.2 ('%' :: (s ++ ['%']))) with ht | hf
      · exact absurd ((hiff e he).mp ht) (h e he)
      · exact hf

set_option maxRecDepth 2000000 in
/-- Witness for C2: on the skeleton of a taweel hemistich the matcher
returns a known meter and the theorem yields its end-to-end first match. -/
theorem c2_meter_matcher_witness :
    ∃ i : Fin meterPatternsTable.length,
      (meterPatternsTable.get i).1 = getBa7er "U--U---U-UU---".toList ∧
      anchoredFull (meterPatternsTable.get i).2 "U--U---U-UU---".toList ∧
      ∀ j : Fin meterPatternsTable.length, (j : Nat) < (i : Nat) →
        ¬ anchoredFull (meterPatternsTable.get j).2 "U--U---U-UU---".toList :=
  (c2_meter_matcher "U--U---U-UU---".toList (by decide)).1 (by decide)

/-- Counterexample to C1 as worded: the code maps a sukūn that is not part
of a fatḥa-sukūn pair to `U`, not to `-` — on the one-sukūn harakāt string
the code yields `U` where the claim requires `-`. -/
theorem c1_skeleton_counterexample :
    getRokazKhoutayt [sukunC] = ['U'] ∧ skeletonSpecC1 [sukunC] = ['-'] ∧
      getRokazKhoutayt [sukunC] ≠ skeletonSpecC1 [sukunC] :=
  ⟨rfl, by decide, by decide⟩

set_option maxRecDepth 1000000 in
/-- C3 fails as a code bug: on a hemistich with the two pronoun endings
`ـهُ` and `ـهِ` the truth table `_get_truth_values 2` is not the `2 ^ 2`
bit rows (the PHP-style row aliasing builds four aliased 3-bit rows), and
`_do_eshbaa3_shater` raises an IndexError (modelled `none`) instead of
enumerating the subsets. -/
theorem c3_eshbaa_crash :
    getTruthValuesPy 2 ≠ allBitRows 2 ∧
      (getTruthValuesPy 2).map List.length = [3, 3, 3, 3] ∧
      doEshbaa3Shater "#لَهُ#بِهِ#".toList = none :=
  ⟨by decide, by decide, rfl⟩

set_option maxRecDepth 1000000 in
/-- C4 fails as a code bug: `analyze_rhyme_patterns` on a list holding one
verse that is the empty string (not the `'empty'` marker) raises an
IndexError inside `_analyse_qafeeh` (modelled `none`) instead of returning
a value. -/
theorem c4_rhyme_crash :
    analyzeRhymePatterns [[]] = none ∧ ([] : Str) ≠ emptyLit :=
  ⟨rfl, by decide⟩

set_option maxRecDepth 2000000 in
/-- C6 fails as a code bug: on the claim's verse (with `is_ajez` false)
`analyze_classical_verse` reports the meter `unknown` and no feet — not
`taweel` with the four claimed foot names — because the two-character
pairing of `_str_to_chars` mis-aligns every vocalised letter pair, so the
harakāt extraction and the skeleton are empty. -/
theorem c6_verse_unknown :
    (analyzeClassicalVerse "قِفَا نَبْكِ مِنْ ذِكْرَى حَبِيبٍ وَمَنْزِلِ".toList false).map
        (fun r => (r.ba7erName, r.tafa3eel)) =
      some ("unknown", []) :=
  rfl

set_option maxRecDepth 1000000 in
/-- C7 fails as a code bug: B is not idempotent on its own output — on the
B-normalised string of `"ا ب"` (namely `"#إِ#ب#"`) a second run of the four
passes yields `"#ب#"`, a different string. -/
theorem c7_not_idempotent :
    normalizeB "ا ب".toList false = "#إِ#ب#".toList ∧
      normalizeB (normalizeB "ا ب".toList false) false = "#ب#".toList ∧
      normalizeB (normalizeB "ا ب".toList false) false ≠ normalizeB "ا ب".toList false :=
  ⟨rfl, rfl, by decide⟩

set_option maxRecDepth 1000000 in
/-- Counterexample to C5 as worded: on the empty input text (with `is_ajez`
true) the B passes produce `"##"`, which contains the double boundary
`##`. -/
theorem c5_boundary_counterexample :
    normalizeB [] true = ['#', '#'] ∧
      List.IsInfix ['#', '#'] (normalizeB [] true) :=
  ⟨rfl, [], [], by decide⟩

set_option maxRecDepth 1000000 in
set_option maxHeartbeats 2000000 in
/-- Alignment of the per-verse loop after the baseline: a successful
`arpRest` run returns one entry per verse, `emptyMark` exactly for the
`'empty'` verses and an analysis for the rest. -/
theorem arpRest_aligned (base : QafeehAnalysis) :
    ∀ (vs : List Str) (l : List RhymeEntry), arpRest base vs = some l →
      l.length = vs.length ∧
      ∀ i, i < vs.length →
        (vs.getD i [] = emptyLit ∧ l.getD i RhymeEntry.emptyMark = RhymeEntry.emptyMark) ∨
        (vs.getD i [] ≠ emptyLit ∧
          ∃ q, l.getD i RhymeEntry.emptyMark = RhymeEntry.analysis q) := by
  intro vs
  induction vs with
  | nil =>
    intro l h
    have heq : arpRest base [] = some [] := rfl
    rw [heq, Option.some.injEq] at h
    subst h
    exact ⟨rfl, fun i hi => absurd hi (by simp)⟩
  | cons v rest ih =>
    intro l h
    have heq : arpRest base (v :: rest) = arpRestStep base v (arpRest base rest) := rfl
    rw [heq, arpRestStep.eq_def] at h
    by_cases hv : v ≠ emptyLit
    · rw [if_pos hv] at h
      cases hq : analyseQafeeh v with
      | none => simp [hq] at h
      | some cur =>
        simp only [hq, Option.map_eq_some'] at h
        obtain ⟨l2, hl2, hl⟩ := h
        obtain ⟨hlen, hal⟩ := ih l2 hl2
        subst hl
        refine ⟨by simp [hlen], ?_⟩
        intro i hi
        cases i with
        | zero => exact Or.inr ⟨hv, _, rfl⟩
        | succ j =>
          simp only [List.getD_cons_succ]
          exact hal j (by simpa using hi)
    · rw [if_neg hv] at h
      simp only [Option.map_eq_some'] at h
      obtain ⟨l2, hl2, hl⟩ := h
      obtain ⟨hlen, hal⟩ := ih l2 hl2
      subst hl
      push_neg at hv
      refine ⟨by simp [hlen], ?_⟩
      intro i hi
      cases i with
      | zero => exact Or.inl ⟨hv, rfl⟩
      | succ j =>
        simp only [List.getD_cons_succ]
        exact hal j (by simpa using hi)

set_option maxRecDepth 1000000 in
/-- Counterexample to C9 as worded: a poem whose second verse is the empty
string (not the `'empty'` marker) makes `analyze_rhyme_patterns` raise
(modelled `none`) rather than return the all-empty marker or an aligned
list, although not every verse is the empty marker. -/
theorem c9_rhyme_counterexample :
    analyzeRhymePatterns [['ب'], []] = none ∧
      ¬ ∀ v ∈ [['ب'], ([] : Str)], v = emptyLit :=
  ⟨rfl, by decide⟩

set_option maxRecDepth 100000 in
/-- C9 amended: whenever `analyze_rhyme_patterns` returns a value at all,
it returns the all-empty marker iff every verse is the `'empty'` marker,
and any returned list is aligned with the input: one `emptyMark` per
`'empty'` verse and one analysis per other verse. -/
theorem c9_rhyme_patterns (verses : List Str)
    (h : (analyzeRhymePatterns verses).isSome = true) :
    (analyzeRhymePatterns verses = some (Sum.inl ()) ↔ ∀ v ∈ verses, v = emptyLit) ∧
    ∀ l, analyzeRhymePatterns verses = some (Sum.inr l) →
      l.length = verses.length ∧
      ∀ i, i < verses.length →
        (verses.getD i [] = emptyLit ∧ l.getD i RhymeEntry.emptyMark = RhymeEntry.emptyMark) ∨
        (verses.getD i [] ≠ emptyLit ∧
          ∃ q, l.getD i RhymeEntry.emptyMark = RhymeEntry.analysis q) := by
  rw [analyzeRhymePatterns] at h ⊢
  induction verses with
  | nil =>
    refine ⟨by simp [arpAux], ?_⟩
    intro l hl
    simp [arpAux] at hl
  | cons v rest ih =>
    simp only [arpAux] at h ⊢
    by_cases hv : v = emptyLit
    · rw [if_pos hv] at h ⊢
      cases ho : arpAux rest with
      | none => simp [ho] at h
      | some r =>
        obtain ⟨ih1, ih2⟩ := ih (by rw [ho]; rfl)
        cases r with
        | inl u =>
          cases u
          constructor
          · constructor
            · intro _ x hx
              rcases List.mem_cons.mp hx with hx1 | hx2
              · exact hx1 ▸ hv
              · exact (ih1.mp ho) x hx2
            · intro _
              rfl
          · intro l hl
            simp at hl
        | inr l2 =>
          constructor
          · constructor
            · intro hcon
              simp at hcon
            · intro hall
              have h2 : arpAux rest = some (Sum.inl ()) :=
                ih1.mpr (fun x hx => hall x (List.mem_cons_of_mem v hx))
              rw [ho] at h2
              simp at h2
          · intro l hl
            simp only [Option.map_some', Option.some.injEq, Sum.inr.injEq] at hl
            obtain ⟨hlen, hal⟩ := ih2 l2 ho
            subst hl
            refine ⟨by simp [hlen], ?_⟩
            intro i hi
            cases i with
            | zero => exact Or.inl ⟨hv, rfl⟩
            | succ j =>
              simp only [List.getD_cons_succ]
              exact hal j (by simpa using hi)
    · rw [if_neg hv] at h ⊢
      cases hq : analyseQafeeh v with
      | none => simp [hq] at h
      | some base =>
        constructor
        · constructor
          · intro hcon
            simp only [Option.map_eq_some'] at hcon
            obtain ⟨l2, _, hl⟩ := hcon
            simp at hl
          · intro hall
            exact absurd (hall v (List.mem_cons_self v rest)) hv
        · intro l hl
          simp only [Option.map_eq_some', Sum.inr.injEq] at hl
          obtain ⟨l2, hl2, hl⟩ := hl
          obtain ⟨hlen, hal⟩ := arpRest_aligned base rest l2 hl2
          subst hl
          refine ⟨by simp [hlen], ?_⟩
          intro i hi
          cases i with
          | zero => exact Or.inr ⟨hv, _, rfl⟩
          | succ j =>
            simp only [List.getD_cons_succ]
            exact hal j (by simpa using hi)

set_option maxRecDepth 1000000 in
/-- Witness for C9 at a two-verse poem (one `'empty'` marker, one analysed
verse): the run succeeds and the theorem's alignment holds there. -/
theorem c9_rhyme_patterns_witness :
    (analyzeRhymePatterns [emptyLit, ['ب']] = some (Sum.inl ()) ↔
      ∀ v ∈ [emptyLit, ['ب']], v = emptyLit) ∧
    ∀ l, analyzeRhymePatterns [emptyLit, ['ب']] = some (Sum.inr l) →
      l.length = ([emptyLit, ['ب']] : List Str).length ∧
      ∀ i, i < ([emptyLit, ['ب']] : List Str).length →
        (([emptyLit, ['ب']] : List Str).getD i [] = emptyLit ∧
          l.getD i RhymeEntry.emptyMark = RhymeEntry.emptyMark) ∨
        (([emptyLit, ['ب']] : List Str).getD i [] ≠ emptyLit ∧
          ∃ q, l.getD i RhymeEntry.emptyMark = RhymeEntry.analysis q) :=
  c9_rhyme_patterns [emptyLit, ['ب']] (by rfl)

set_option maxHeartbeats 1000000 in
/-- No candidate table of `_what_tafeela_poem_on` contains a `hazaj`
entry: `hazaj` can only arise from the wafer downgrade. -/
theorem tafeelaBase_no_hazaj (s : Str) (p : String) : ("hazaj", p) ∉ tafeelaBase s := by
  intro he
  rw [tafeelaBase.eq_def] at he
  split_ifs at he <;> simp_all

set_option maxHeartbeats 1000000 in
/-- Invariant of the best-candidate fold: a `wafer` result means some
`wafer` table entry whose `findall` captures contain `U-UU-`, a `hazaj`
result means some `wafer` entry whose captures do not. -/
theorem wtpFold_wafer (test : Str) (tbl0 : List (String × String)) :
    ∀ (tbl : List (String × String)) (maxM : Nat) (best : String),
      (∀ e ∈ tbl, e ∈ tbl0 ∧ e.1 ≠ "hazaj") →
      (best = "wafer" → ∃ p, ("wafer", p) ∈ tbl0 ∧ "U-UU-".toList ∈ findallCaps p test) →
      (best = "hazaj" → ∃ p, ("wafer", p) ∈ tbl0 ∧ "U-UU-".toList ∉ findallCaps p test) →
      ((wtpFold test tbl maxM best = "wafer" →
          ∃ p, ("wafer", p) ∈ tbl0 ∧ "U-UU-".toList ∈ findallCaps p test) ∧
       (wtpFold test tbl maxM best = "hazaj" →
          ∃ p, ("wafer", p) ∈ tbl0 ∧ "U-UU-".toList ∉ findallCaps p test)) := by
  intro tbl
  induction tbl with
  | nil =>
    intro maxM best _ h1 h2
    exact ⟨fun h => h1 (by simpa [wtpFold] using h),
           fun h => h2 (by simpa [wtpFold] using h)⟩
  | cons e rest ih =>
    intro maxM best hmem h1 h2
    obtain ⟨name, pat⟩ := e
    obtain ⟨he0, hname⟩ := hmem ⟨name, pat⟩ (List.mem_cons_self _ rest)
    have hmem2 : ∀ x ∈ rest, x ∈ tbl0 ∧ x.1 ≠ "hazaj" :=
      fun x hx => hmem x (List.mem_cons_of_mem _ hx)
    simp only [wtpFold]
    by_cases hc : (findallCaps pat test).length > maxM
    · rw [if_pos hc]
      by_cases hw : name = "wafer"
      · rw [if_pos hw]
        subst hw
        by_cases hcap : "U-UU-".toList ∈ findallCaps pat test
        · rw [if_pos hcap]
          exact ih _ _ hmem2 (fun _ => ⟨pat, he0, hcap⟩) (fun hcon => absurd hcon (by decide))
        · rw [if_neg hcap]
          exact ih _ _ hmem2 (fun hcon => absurd hcon (by decide)) (fun _ => ⟨pat, he0, hcap⟩)
      · rw [if_neg hw]
        exact ih _ _ hmem2 (fun hcon => absurd hcon hw) (fun hcon => absurd hcon hname)
    · rw [if_neg hc]
      exact ih _ _ hmem2 h1 h2

set_option maxRecDepth 1000000 in
/-- Counterexample to C8 as worded: on this skeleton the winning `wafer`
pattern does match with a `U-UU-` sub-match inside the scored prefix (the
skeleton decomposes as `U-UU-` followed by three `U---` repetitions), yet
the code consults only the `findall` capture list — which keeps the last
repetition `U---` of each match — and therefore returns `hazaj`. -/
theorem c8_wafer_counterexample :
    whatTafeelaPoemOn "U-UU-U---U---U---".toList = "hazaj" ∧
      ("wafer", "(U-UU-|U---)\x7b4\x7d") ∈
        tafeelaBase ("U-UU-U---U---U---".toList.take 4) ∧
      "U-UU-U---U---U---".toList =
        "U-UU-".toList ++ "U---".toList ++ "U---".toList ++ "U---".toList ∧
      findallCaps "(U-UU-|U---)\x7b4\x7d" "U-UU-U---U---U---".toList = ["U---".toList] :=
  ⟨rfl, by decide, by decide, rfl⟩

set_option maxHeartbeats 1000000 in
/-- C8 amended: a `wafer` verdict of `_what_tafeela_poem_on` means some
`wafer` table entry's `findall` capture list over the scored prefix (first
21 skeleton symbols) contains `U-UU-`, and a `hazaj` verdict means some
`wafer` entry whose capture list does not contain it (the code tests
membership in `re.findall`'s last-repetition captures, not the existence
of a `U-UU-` sub-match). -/
theorem c8_wafer_hazaj (rokaz : Str) :
    (whatTafeelaPoemOn rokaz = "wafer" →
      ∃ p, ("wafer", p) ∈ tafeelaBase (if rokaz.length ≥ 4 then rokaz.take 4 else rokaz) ∧
        "U-UU-".toList ∈ findallCaps p (if rokaz.length ≥ 21 then rokaz.take 21 else rokaz)) ∧
    (whatTafeelaPoemOn rokaz = "hazaj" →
      ∃ p, ("wafer", p) ∈ tafeelaBase (if rokaz.length ≥ 4 then rokaz.take 4 else rokaz) ∧
        "U-UU-".toList ∉ findallCaps p (if rokaz.length ≥ 21 then rokaz.take 21 else rokaz)) := by
  simp only [whatTafeelaPoemOn]
  by_cases hb : (tafeelaBase (if rokaz.length ≥ 4 then rokaz.take 4 else rokaz)).isEmpty
  · rw [if_pos hb]
    exact ⟨fun hcon => absurd hcon (by decide), fun hcon => absurd hcon (by decide)⟩
  · rw [if_neg hb]
    refine wtpFold_wafer _ _ _ 0 "unknown" ?_
      (fun hcon => absurd hcon (by decide)) (fun hcon => absurd hcon (by decide))
    intro e he
    refine ⟨he, fun hh => ?_⟩
    have : ("hazaj", e.2) ∈ tafeelaBase (if rokaz.length ≥ 4 then rokaz.take 4 else rokaz) := by
      rw [← hh]
      simpa using he
    exact tafeelaBase_no_hazaj _ e.2 this

set_option maxRecDepth 1000000 in
/-- Witness for C8: a skeleton on which the verdict is `wafer`, with the
theorem's `wafer` implication discharged at that input. -/
theorem c8_wafer_hazaj_witness :
    ∃ p, ("wafer", p) ∈
        tafeelaBase (if ("U-UU-U-UU-U-UU-U-UU-".toList : Str).length ≥ 4 then
          "U-UU-U-UU-U-UU-U-UU-".toList.take 4 else "U-UU-U-UU-U-UU-U-UU-".toList) ∧
      "U-UU-".toList ∈ findallCaps p
        (if ("U-UU-U-UU-U-UU-U-UU-".toList : Str).length ≥ 21 then
          "U-UU-U-UU-U-UU-U-UU-".toList.take 21 else "U-UU-U-UU-U-UU-U-UU-".toList) :=
  (c8_wafer_hazaj "U-UU-U-UU-U-UU-U-UU-".toList).1 (by rfl)

set_option maxHeartbeats 1000000 in
/-- A successful `ok` match inside the wizard's pattern loop consumes a
non-empty pattern prefix of the remaining skeleton. -/
theorem wizardTryPats_short (pats : List Str) (names : List String) (rokaz chars : Str)
    (hr : rokaz ≠ []) :
    ∀ l : List Str, (∀ p ∈ l, p ≠ []) →
      ∀ rep, wizardTryPats pats names rokaz chars l = some (some rep) →
        rep.2.1.length < rokaz.length := by
  intro l
  induction l with
  | nil =>
    intro _ rep h
    simp [wizardTryPats] at h
  | cons pat rest ih =>
    intro hp rep h
    simp only [wizardTryPats] at h
    cases hn : wizardFindNameAux names pats (rokaz.take pat.length) 0 with
    | none => rw [hn] at h; simp at h
    | some nm =>
      simp only [hn] at h
      by_cases hpe : pat = rokaz.take pat.length
      · rw [if_pos hpe] at h
        simp only [Option.some.injEq] at h
        have h21 : rep.2.1 = rokaz.drop pat.length := by rw [← h]
        have hplen : 1 ≤ pat.length := by
          cases hpat : pat with
          | nil => exact absurd hpat (hp pat (List.mem_cons_self pat rest))
          | cons _ _ => simp
        have hrlen : 1 ≤ rokaz.length := by
          cases rokaz with
          | nil => exact absurd rfl hr
          | cons _ _ => simp
        rw [h21, List.length_drop]
        omega
      · rw [if_neg hpe] at h
        exact ih (fun p hm => hp p (List.mem_cons_of_mem pat hm)) rep h

set_option maxHeartbeats 1000000 in
/-- One iteration of the wizard while-loop strictly shortens the skeleton
(whether the `ok` or the `err` branch ran), as long as every expected
pattern is non-empty. -/
theorem wizardStep_short (pats : List Str) (names : List String)
    (hp : ∀ p ∈ pats, p ≠ []) (rokaz chars : Str) (hr : rokaz ≠ []) :
    ∀ rep, wizardStep pats names rokaz chars = some rep →
      rep.2.1.length < rokaz.length := by
  intro rep h
  simp only [wizardStep] at h
  cases htp : wizardTryPats pats names rokaz chars pats with
  | none => rw [htp] at h; simp at h
  | some o =>
    cases o with
    | some r =>
      simp only [htp, Option.some.injEq] at h
      subst h
      exact wizardTryPats_short pats names rokaz chars hr pats hp _ htp
    | none =>
      simp only [htp] at h
      cases hh : pats.head? with
      | none => rw [hh] at h; simp at h
      | some p0 =>
        simp only [hh] at h
        cases hn : wizardFindNameAux names pats (rokaz.take p0.length) 0 with
        | none => rw [hn] at h; simp at h
        | some nm =>
          simp only [hn, Option.some.injEq] at h
          have h21 : rep.2.1 = rokaz.drop p0.length := by rw [← h]
          have hplen : 1 ≤ p0.length := by
            cases hpat : p0 with
            | nil => exact absurd hpat (hp p0 (List.mem_of_mem_head? hh))
            | cons _ _ => simp
          have hrlen : 1 ≤ rokaz.length := by
            cases rokaz with
            | nil => exact absurd rfl hr
            | cons _ _ => simp
          rw [h21, List.length_drop]
          omega

set_option maxHeartbeats 1000000 in
/-- With non-empty patterns, skeleton length is enough fuel: the wizard
while-loop never runs out. -/
theorem wizardLoopF_no_fuelOut (pats : List Str) (names : List String)
    (hp : ∀ p ∈ pats, p ≠ []) :
    ∀ (fuel : Nat) (rokaz chars : Str), rokaz.length ≤ fuel →
      wizardLoopF pats names fuel rokaz chars ≠ LoopOut.fuelOut := by
  intro fuel
  induction fuel with
  | zero =>
    intro rokaz chars hle
    have hnil : rokaz = [] := List.eq_nil_of_length_eq_zero (by omega)
    subst hnil
    simp [wizardLoopF]
  | succ fuel ih =>
    intro rokaz chars hle
    cases rokaz with
    | nil => simp [wizardLoopF]
    | cons r rz =>
      simp only [wizardLoopF]
      cases hs : wizardStep pats names (r :: rz) chars with
      | none => simp
      | some rep =>
        have hshort := wizardStep_short pats names hp (r :: rz) chars (by simp) rep hs
        have hrec := ih rep.2.1 rep.2.2
          (by simp only [List.length_cons] at hshort hle; omega)
        intro hcon
        simp only [Option.some.injEq] at hcon
        cases hrecv : wizardLoopF pats names fuel rep.2.1 rep.2.2 with
        | out l => rw [hrecv] at hcon; simp at hcon
        | err => rw [hrecv] at hcon; simp at hcon
        | fuelOut => exact absurd hrecv hrec

set_option maxHeartbeats 1000000 in
/-- C10: with every expected pattern a non-empty string, the wizard free
verse analysis terminates — each while iteration strictly shortens the
remaining skeleton, whether or not an alternative matched, so the
skeleton's length bounds the number of iterations and the fuelled loop
never exhausts its fuel on any input text. -/
theorem c10_wizard_terminates (pats : List Str) (names : List String)
    (hp : ∀ p ∈ pats, p ≠ []) :
    (∀ (rokaz chars : Str) (rep : FootReport × Str × Str), rokaz ≠ [] →
      wizardStep pats names rokaz chars = some rep → rep.2.1.length < rokaz.length) ∧
    (∀ text : Str, wizardAnalysisFreeVerse text pats names ≠ LoopOut.fuelOut) := by
  constructor
  · intro rokaz chars rep hr hs
    exact wizardStep_short pats names hp rokaz chars hr rep hs
  · intro text
    simp only [wizardAnalysisFreeVerse]
    exact wizardLoopF_no_fuelOut pats names hp _ _ _ le_rfl

/-- Witness for C10 at a concrete one-pattern rule set: the hypothesis
(non-empty patterns) holds and the theorem applies. -/
theorem c10_wizard_terminates_witness :
    (∀ (rokaz chars : Str) (rep : FootReport × Str × Str), rokaz ≠ [] →
      wizardStep ["U-U".toList] ["فاعل"] rokaz chars = some rep →
        rep.2.1.length < rokaz.length) ∧
    (∀ text : Str,
      wizardAnalysisFreeVerse text ["U-U".toList] ["فاعل"] ≠ LoopOut.fuelOut) :=
  c10_wizard_terminates ["U-U".toList] ["فاعل"] (by decide)

/-- A list whose `head?` is known is a cons. -/
theorem cons_of_headq {α : Type} (l : List α) (x : α) (h : l.head? = some x) :
    ∃ t, l = x :: t := by
  cases l with
  | nil => simp at h
  | cons c t =>
    simp at h
    exact ⟨t, by rw [h]⟩

/-- `getLast?` ignores a cons onto a non-empty list. -/
theorem lastq_cons {α : Type} (x : α) (l : List α) (h : l ≠ []) :
    (x :: l).getLast? = l.getLast? := by
  cases l with
  | nil => exact absurd rfl h
  | cons y t => rfl

/-- `getLast?` of an append with a non-empty right part. -/
theorem lastq_append {α : Type} (l1 l2 : List α) (h : l2 ≠ []) :
    (l1 ++ l2).getLast? = l2.getLast? := by
  induction l1 with
  | nil => rfl
  | cons x t ih =>
    have ht : t ++ l2 ≠ [] := by simp [h]
    rw [List.cons_append, lastq_cons x (t ++ l2) ht, ih]

/-- A list with a known `getLast?` decomposes off its last element. -/
theorem exists_of_lastq {α : Type} (l : List α) (x : α) (h : l.getLast? = some x) :
    ∃ l2, l = l2 ++ [x] := by
  induction l with
  | nil => simp at h
  | cons c t ih =>
    cases t with
    | nil =>
      simp [List.getLast?] at h
      exact ⟨[], by simp [h]⟩
    | cons d t2 =>
      rw [lastq_cons c (d :: t2) (by simp)] at h
      obtain ⟨l2, hl⟩ := ih h
      exact ⟨c :: l2, by simp [hl]⟩

/-- The last element is a member. -/
theorem mem_of_lastq {α : Type} (l : List α) (x : α) (h : l.getLast? = some x) : x ∈ l := by
  obtain ⟨l2, rfl⟩ := exists_of_lastq l x h
  simp

/-- `map` and `head?` commute. -/
theorem headq_map {α β : Type} (f : α → β) (l : List α) :
    (l.map f).head? = l.head?.map f := by
  cases l <;> rfl

/-- `getLast?` after a `map` that fixes the last element. -/
theorem lastq_map {α β : Type} (f : α → β) (l : List α) (x : α) (h : l.getLast? = some x) :
    (l.map f).getLast? = some (f x) := by
  obtain ⟨l2, rfl⟩ := exists_of_lastq l x h
  rw [List.map_append, lastq_append _ _ (by simp)]
  rfl

/-- A filter keeps a passing head in first position. -/
theorem filter_headq {α : Type} (P : α → Bool) (l : List α) (x : α)
    (h : l.head? = some x) (hP : P x = true) : (l.filter P).head? = some x := by
  obtain ⟨t, rfl⟩ := cons_of_headq l x h
  simp [List.filter_cons, hP]

/-- A filter keeps a passing last element in last position. -/
theorem filter_lastq {α : Type} (P : α → Bool) (l : List α) (x : α)
    (h : l.getLast? = some x) (hP : P x = true) : (l.filter P).getLast? = some x := by
  obtain ⟨l2, rfl⟩ := exists_of_lastq l x h
  rw [List.filter_append, lastq_append _ _ (by simp [List.filter_cons, hP])]
  simp [List.filter_cons, hP]

/-- Flattening a unit list whose first unit is `['#']` yields a `#`-headed
string. -/
theorem flatten_headq (l : List Str) (h : l.head? = some ['#']) :
    l.flatten.head? = some '#' := by
  obtain ⟨t, rfl⟩ := cons_of_headq l ['#'] h
  rfl

/-- Flattening a unit list whose last unit is `['#']` yields a `#`-ended
string. -/
theorem flatten_lastq (l : List Str) (h : l.getLast? = some ['#']) :
    l.flatten.getLast? = some '#' := by
  obtain ⟨l2, rfl⟩ := exists_of_lastq l ['#'] h
  rw [List.flatten_append, lastq_append _ _ (by simp)]
  rfl

/-- `str.replace` on the empty string. -/
theorem pyReplaceAux_nil (pat rep : Str) : ∀ fuel, pyReplaceAux pat rep fuel [] = [] := by
  intro fuel
  cases fuel <;> rfl

/-- `str.replace` keeps a head character the pattern does not start with. -/
theorem pyReplaceAux_headq (pat rep : Str) (c : Char) (hpat : pat ≠ [])
    (hne : pat.head? ≠ some c) :
    ∀ (fuel : Nat) (s : Str), s.head? = some c →
      (pyReplaceAux pat rep fuel s).head? = some c := by
  intro fuel s hs
  obtain ⟨rest, rfl⟩ := cons_of_headq s c hs
  cases fuel with
  | zero => rfl
  | succ f =>
    obtain ⟨p0, pt, rfl⟩ : ∃ p0 pt, pat = p0 :: pt := by
      cases pat with
      | nil => exact absurd rfl hpat
      | cons p0 pt => exact ⟨p0, pt, rfl⟩
    have hp : ¬ ((p0 :: pt).isPrefixOf (c :: rest) = true) := by
      simp only [List.isPrefixOf, Bool.and_eq_true, beq_iff_eq]
      intro hco
      exact hne (by rw [hco.1]; rfl)
    simp only [pyReplaceAux, if_neg hp]
    rfl

/-- `str.replace` with a `#`-free pattern keeps a final `#`. -/
theorem pyReplaceAux_lastq (pat rep : Str) (hpat : pat ≠ []) (hmem : '#' ∉ pat) :
    ∀ (fuel : Nat) (s : Str), s.length ≤ fuel → s.getLast? = some '#' →
      (pyReplaceAux pat rep fuel s).getLast? = some '#' := by
  intro fuel
  induction fuel with
  | zero =>
    intro s hle hs
    have : s = [] := List.eq_nil_of_length_eq_zero (by omega)
    subst this
    simp at hs
  | succ f ih =>
    intro s hle hs
    cases s with
    | nil => simp at hs
    | cons c rest =>
      by_cases hp : pat.isPrefixOf (c :: rest) = true
      · simp only [pyReplaceAux, if_pos hp]
        obtain ⟨suff, hsuff⟩ := (List.isPrefixOf_iff_prefix.mp hp)
        have hdrop : (c :: rest).drop pat.length = suff := by
          rw [← hsuff, List.drop_left]
        have hsne : suff ≠ [] := by
          intro hnil
          rw [hnil, List.append_nil] at hsuff
          exact hmem (hsuff ▸ mem_of_lastq _ _ hs)
        have hslast : suff.getLast? = some '#' := by
          rw [← lastq_append pat suff hsne, hsuff]
          exact hs
        have hplen : 1 ≤ pat.length := by
          cases pat with
          | nil => exact absurd rfl hpat
          | cons _ _ => simp
        have hslen : suff.length ≤ f := by
          have := congrArg List.length hsuff
          simp only [List.length_append, List.length_cons] at this hle
          omega
        have hrec := ih suff hslen hslast
        rw [hdrop, lastq_append _ _ (by intro hnil; rw [hnil] at hrec; simp at hrec)]
        exact hrec
      · simp only [pyReplaceAux, if_neg hp]
        cases rest with
        | nil =>
          simp at hs
          rw [pyReplaceAux_nil, hs]
          rfl
        | cons d t2 =>
          have hrl : (d :: t2).getLast? = some '#' := by
            rw [← lastq_cons c (d :: t2) (by simp)]
            exact hs
          have hrec := ih (d :: t2) (by simp at hle ⊢; omega) hrl
          rw [lastq_cons _ _ (by intro hnil; rw [hnil] at hrec; simp at hrec)]
          exact hrec

/-- The punctuation-removal fold keeps a leading `#`. -/
theorem foldl_punct_headq (ps : List Char) (hps : ∀ p ∈ ps, p ≠ '#') :
    ∀ s : Str, s.head? = some '#' →
      (ps.foldl (fun acc p => pyReplace [p] [] acc) s).head? = some '#' := by
  induction ps with
  | nil => intro s hs; exact hs
  | cons p rest ih =>
    intro s hs
    have h1 : (pyReplace [p] [] s).head? = some '#' := by
      rw [pyReplace]
      exact pyReplaceAux_headq [p] [] '#' (by simp)
        (by simp; exact fun hc => hps p (List.mem_cons_self p rest) hc) _ s hs
    exact ih (fun q hq => hps q (List.mem_cons_of_mem p hq)) _ h1

/-- Collapsing runs keeps a leading `#` (wrapper below fixes the fuel). -/
theorem collapseRunsAux_headq (a b : Char) (hc : a ≠ '#' ∨ b = '#') :
    ∀ (fuel : Nat) (s : Str), s.head? = some '#' →
      (collapseRunsAux a b fuel s).head? = some '#' := by
  intro fuel s hs
  obtain ⟨rest, rfl⟩ := cons_of_headq s '#' hs
  cases fuel with
  | zero => rfl
  | succ f =>
    by_cases hca : '#' = a
    · simp only [collapseRunsAux, if_pos hca]
      rcases hc with h1 | h2
      · exact absurd hca.symm h1
      · rw [h2]
        rfl
    · simp only [collapseRunsAux, if_neg hca]
      rfl

/-- Collapsing runs keeps a leading `#` (when `a` is not `#`, or the
replacement is `#`). -/
theorem collapseRuns_headq (a b : Char) (hc : a ≠ '#' ∨ b = '#') (s : Str)
    (hs : s.head? = some '#') : (collapseRuns a b s).head? = some '#' := by
  rw [collapseRuns]
  exact collapseRunsAux_headq a b hc _ s hs

/-- `_str_to_chars` on a non-empty string yields units. -/
theorem strToCharsAux_ne_nil (s : Str) (h : s ≠ []) : strToCharsAux s ≠ [] := by
  cases s with
  | nil => exact absurd rfl h
  | cons a rest =>
    cases rest with
    | nil =>
      simp only [strToCharsAux]
      split_ifs <;> simp
    | cons b r2 =>
      simp only [strToCharsAux]
      split_ifs <;> simp

/-- A `#`-headed string is cut with `['#']` as its first unit. -/
theorem strToCharsAux_headq (s : Str) (h : s.head? = some '#') :
    (strToCharsAux s).head? = some ['#'] := by
  obtain ⟨rest, rfl⟩ := cons_of_headq s '#' h
  cases rest with
  | nil => rfl
  | cons b r2 =>
    have h1 : ¬ (('#' : Char) ≠ '#' ∧ b ≠ '#') := by simp
    simp only [strToCharsAux, if_neg h1, if_pos rfl]
    rfl

/-- Fuelled form of the last-unit lemma for the pairing loop. -/
theorem strToCharsAux_lastq_aux :
    ∀ (n : Nat) (s : Str), s.length ≤ n → s.getLast? = some '#' →
      (strToCharsAux s).getLast? = some ['#'] := by
  intro n
  induction n with
  | zero =>
    intro s hle hs
    have : s = [] := List.eq_nil_of_length_eq_zero (by omega)
    subst this
    simp at hs
  | succ n ih =>
    intro s hle hs
    cases s with
    | nil => simp at hs
    | cons a rest =>
      cases rest with
      | nil =>
        simp [List.getLast?] at hs
        simp only [strToCharsAux, hs, if_pos rfl]
        rfl
      | cons b rest2 =>
        simp only [strToCharsAux]
        by_cases hab : a ≠ '#' ∧ b ≠ '#'
        · rw [if_pos hab]
          cases rest2 with
          | nil =>
            rw [lastq_cons a [b] (by simp)] at hs
            simp [List.getLast?] at hs
            exact absurd hs hab.2
          | cons c r2 =>
            have hrl : (c :: r2).getLast? = some '#' := by
              rw [← lastq_cons b (c :: r2) (by simp), ← lastq_cons a (b :: c :: r2) (by simp)]
              exact hs
            have hrec := ih (c :: r2) (by simp at hle ⊢; omega) hrl
            rw [lastq_cons _ _ (strToCharsAux_ne_nil _ (by simp))]
            exact hrec
        · rw [if_neg hab]
          have hrl : (b :: rest2).getLast? = some '#' := by
            rw [← lastq_cons a (b :: rest2) (by simp)]
            exact hs
          have hrec := ih (b :: rest2) (by simp at hle ⊢; omega) hrl
          by_cases ha : a = '#'
          · rw [if_pos ha, lastq_cons _ _ (strToCharsAux_ne_nil _ (by simp))]
            exact hrec
          · rw [if_neg ha, lastq_cons _ _ (strToCharsAux_ne_nil _ (by simp))]
            exact hrec

/-- A `#`-ended string is cut with `['#']` as its last unit. -/
theorem strToCharsAux_lastq (s : Str) (h : s.getLast? = some '#') :
    (strToCharsAux s).getLast? = some ['#'] :=
  strToCharsAux_lastq_aux s.length s le_rfl h

/-- `_str_to_chars` of a `#`-bounded text is `#`-bounded unit-wise. -/
theorem strToChars_boundary (s : Str) (h1 : s.head? = some '#')
    (h2 : s.getLast? = some '#') :
    (strToChars s).head? = some ['#'] ∧ (strToChars s).getLast? = some ['#'] := by
  rw [strToChars]
  constructor
  · apply strToCharsAux_headq
    rw [headq_map, h1]
    rfl
  · apply strToCharsAux_lastq
    rw [lastq_map _ s '#' h2]
    rfl

/-- The kept units of `_clean_str` begin with `#` when the cleaned text
does. -/
theorem kept_headq (t4 : Str) (h : t4.head? = some '#') :
    (((strToChars t4).filter (fun u => u ∈ ALPHABET ∨ u ∈ HARAKAT)).flatten).head? =
      some '#' := by
  apply flatten_headq
  apply filter_headq
  · rw [strToChars]
    apply strToCharsAux_headq
    rw [headq_map, h]
    rfl
  · decide

/-- The kept units of `_clean_str` end with `#` when the cleaned text
does. -/
theorem kept_lastq (t4 : Str) (h : t4.getLast? = some '#') :
    (((strToChars t4).filter (fun u => u ∈ ALPHABET ∨ u ∈ HARAKAT)).flatten).getLast? =
      some '#' := by
  apply flatten_lastq
  apply filter_lastq
  · rw [strToChars]
    apply strToCharsAux_lastq
    rw [lastq_map _ t4 '#' h]
    decide
  · decide

set_option maxHeartbeats 1000000 in
/-- `_clean_str` output always begins and ends with `#`. -/
theorem cleanStr_boundary (text : Str) :
    (cleanStr text).head? = some '#' ∧ (cleanStr text).getLast? = some '#' := by
  simp only [cleanStr]
  have ht1 : (if text.take 1 = ['#'] then text else '#' :: text).head? = some '#' := by
    split_ifs with hc
    · cases text with
      | nil => simp at hc
      | cons c r =>
        simp at hc
        rw [hc]
        rfl
    · rfl
  generalize hgen : (if text.take 1 = ['#'] then text else '#' :: text) = t1 at ht1 ⊢
  have ht4 := foldl_punct_headq punctuationList (by decide) _
    (collapseRuns_headq '#' '#' (Or.inr rfl) _
      (collapseRuns_headq ' ' '#' (Or.inl (by decide)) _ ht1))
  split_ifs with hlast
  · exact ⟨kept_headq _ ht4, kept_lastq _ hlast⟩
  · constructor
    · obtain ⟨t, ht⟩ := cons_of_headq _ _ (kept_headq _ ht4)
      rw [ht]
      rfl
    · rw [lastq_append _ _ (by simp)]
      rfl

/-- A non-nullable pattern never rewrites the empty string. -/
theorem subAllAux_nil (r : RE) (t : List TItem) (hn : reNullable r = false) :
    ∀ fuel, subAllAux r t fuel [] = [] := by
  intro fuel
  cases fuel with
  | zero => rfl
  | succ f =>
    simp only [subAllAux]
    cases hrun : (RE.run (runFuel r []) r []).head? with
    | none => rfl
    | some pr =>
      obtain ⟨rem, caps⟩ := pr
      have hmem : (rem, caps) ∈ RE.run (runFuel r []) r [] :=
        List.mem_of_mem_head? (by rw [hrun]; rfl)
      obtain ⟨tt, hteq, htlen, _⟩ := RE.run_shape (fun c => !(c == '#')) _ _ _ _ _ hmem
      have hmin := reNullable_minLen r hn
      have : tt = [] ∧ rem = [] := by
        constructor <;> [skip; skip] <;> cases htt : tt <;> cases hrem2 : rem <;>
          rw [htt, hrem2] at hteq <;> first | rfl | simp at hteq
      rw [this.1] at htlen
      simp at htlen
      omega

/-- `re.sub` with a non-nullable pattern and a `#`-headed template keeps a
leading `#`. -/
theorem subAllAux_headq (r : RE) (t : List TItem) (hn : reNullable r = false)
    (ht : t.head? = some (TItem.lit '#')) :
    ∀ (fuel : Nat) (s : Str), s.head? = some '#' →
      (subAllAux r t fuel s).head? = some '#' := by
  intro fuel s hs
  obtain ⟨t2, rfl⟩ := cons_of_headq t (TItem.lit '#') ht
  obtain ⟨rest, rfl⟩ := cons_of_headq s '#' hs
  cases fuel with
  | zero => rfl
  | succ f =>
    simp only [subAllAux]
    cases hrun : (RE.run (runFuel r ('#' :: rest)) r ('#' :: rest)).head? with
    | none => rfl
    | some pr =>
      obtain ⟨rem, caps⟩ := pr
      have hmem : (rem, caps) ∈ RE.run (runFuel r ('#' :: rest)) r ('#' :: rest) :=
        List.mem_of_mem_head? (by rw [hrun]; rfl)
      obtain ⟨tt, hteq, htlen, _⟩ := RE.run_shape (fun c => !(c == '#')) _ _ _ _ _ hmem
      have hmin := reNullable_minLen r hn
      have hlen : ('#' :: rest).length = tt.length + rem.length := by
        rw [hteq]
        simp
      have hdiff : ¬ (('#' :: rest).length - rem.length = 0) := by omega
      simp only [if_neg hdiff]
      rfl

/-- `re.sub` with a non-nullable pattern whose matches end only in non-`#`
characters keeps a final `#`. -/
theorem subAllAux_lastq (r : RE) (t : List TItem) (hn : reNullable r = false)
    (hE : reEndsOnly (fun c => !(c == '#')) r = true) :
    ∀ (fuel : Nat) (s : Str), s.length ≤ fuel → s.getLast? = some '#' →
      (subAllAux r t fuel s).getLast? = some '#' := by
  intro fuel
  induction fuel with
  | zero =>
    intro s hle hs
    have : s = [] := List.eq_nil_of_length_eq_zero (by omega)
    subst this
    simp at hs
  | succ f ih =>
    intro s hle hs
    have hsne : s ≠ [] := by intro hnil; rw [hnil] at hs; simp at hs
    simp only [subAllAux]
    cases hrun : (RE.run (runFuel r s) r s).head? with
    | none =>
      obtain ⟨c, rest, rfl⟩ : ∃ c rest, s = c :: rest := by
        cases s with
        | nil => exact absurd rfl hsne
        | cons c rest => exact ⟨c, rest, rfl⟩
      cases rest with
      | nil =>
        simp [List.getLast?] at hs
        subst hs
        show (('#' : Char) :: subAllAux r t f []).getLast? = some '#'
        rw [subAllAux_nil r t hn f]
        rfl
      | cons d t2 =>
        show (c :: subAllAux r t f (d :: t2)).getLast? = some '#'
        have hrl : (d :: t2).getLast? = some '#' := by
          rw [← lastq_cons c (d :: t2) (by simp)]
          exact hs
        have hrec := ih (d :: t2) (by simp at hle ⊢; omega) hrl
        rw [lastq_cons _ _ (by intro hnil; rw [hnil] at hrec; simp at hrec)]
        exact hrec
    | some pr =>
      obtain ⟨rem, caps⟩ := pr
      have hmem : (rem, caps) ∈ RE.run (runFuel r s) r s :=
        List.mem_of_mem_head? (by rw [hrun]; rfl)
      obtain ⟨tt, hteq, htlen, hend⟩ := RE.run_shape (fun c => !(c == '#')) _ _ _ _ _ hmem
      have hmin := reNullable_minLen r hn
      have httne : tt ≠ [] := by
        intro hnil
        rw [hnil] at htlen
        simp at htlen
        omega
      have hremne : rem ≠ [] := by
        intro hnil
        rcases hend hE with h0 | ⟨t0, x, htx, hx⟩
        · exact httne h0
        · rw [hnil, List.append_nil] at hteq
          rw [hteq, htx, lastq_append _ _ (by simp)] at hs
          simp [List.getLast?] at hs
          rw [hs] at hx
          simp at hx
      have hlen : s.length = tt.length + rem.length := by
        rw [hteq]
        simp
      have h1 : 1 ≤ tt.length := by
        cases tt with
        | nil => exact absurd rfl httne
        | cons _ _ => simp
      have hdiff : ¬ (s.length - rem.length = 0) := by omega
      simp only [if_neg hdiff]
      have hrl : rem.getLast? = some '#' := by
        rw [← lastq_append tt rem hremne, ← hteq]
        exact hs
      have hrlen : rem.length ≤ f := by omega
      have hrec := ih rem hrlen hrl
      rw [lastq_append _ _ (by intro hnil; rw [hnil] at hrec; simp at hrec)]
      exact hrec

/-- One `re.sub` rule keeps a `#`-bounded string `#`-bounded, under the
three syntactic rule facts. -/
theorem pySub_boundary (p t : String) (hn : reNullable (compileRE p) = false)
    (hE : reEndsOnly (fun c => !(c == '#')) (compileRE p) = true)
    (ht : (parseTmpl t.toList).head? = some (TItem.lit '#')) (s : Str)
    (h1 : s.head? = some '#') (h2 : s.getLast? = some '#') :
    (pySub p t s).head? = some '#' ∧ (pySub p t s).getLast? = some '#' := by
  rw [pySub]
  exact ⟨subAllAux_headq _ _ hn ht _ s h1,
         subAllAux_lastq _ _ hn hE _ s (by omega) h2⟩

/-- An ordered rule table all of whose rules satisfy the three syntactic
facts keeps a `#`-bounded string `#`-bounded. -/
theorem applyRules_boundary (rules : List (String × String))
    (hf : ∀ r ∈ rules, reNullable (compileRE r.1) = false ∧
      reEndsOnly (fun c => !(c == '#')) (compileRE r.1) = true ∧
      (parseTmpl r.2.toList).head? = some (TItem.lit '#')) :
    ∀ s : Str, s.head? = some '#' → s.getLast? = some '#' →
      (applyRules rules s).head? = some '#' ∧ (applyRules rules s).getLast? = some '#' := by
  induction rules with
  | nil =>
    intro s h1 h2
    exact ⟨h1, h2⟩
  | cons r rest ih =>
    intro s h1 h2
    obtain ⟨hn, hE, ht⟩ := hf r (List.mem_cons_self r rest)
    have hps := pySub_boundary r.1 r.2 hn hE ht s h1 h2
    have hstep : applyRules (r :: rest) s = applyRules rest (pySub r.1 r.2 s) := rfl
    rw [hstep]
    exact ih (fun x hx => hf x (List.mem_cons_of_mem r hx)) _ hps.1 hps.2

set_option maxRecDepth 1000000 in
set_option maxHeartbeats 4000000 in
/-- The three syntactic facts hold of every hamzat-wasl rule: no rule
matches the empty string, every match ends in a non-`#` character, and
every replacement begins with a literal `#`. -/
theorem hamzatRules_facts :
    ∀ r ∈ hamzatRules, reNullable (compileRE r.1) = false ∧
      reEndsOnly (fun c => !(c == '#')) (compileRE r.1) = true ∧
      (parseTmpl r.2.toList).head? = some (TItem.lit '#') := by decide

/-- Setting index 1 leaves the head unchanged. -/
theorem set1_headq {α : Type} (l : List α) (x : α) : (l.set 1 x).head? = l.head? := by
  cases l with
  | nil => rfl
  | cons a t =>
    cases t with
    | nil => rfl
    | cons b t2 => rfl

/-- Setting index 1 in a list of length at least four leaves the last
element unchanged. -/
theorem set1_lastq {α : Type} (l : List α) (x : α) (h : 3 < l.length) :
    (l.set 1 x).getLast? = l.getLast? := by
  match l, h with
  | a :: b :: c :: d :: t, _ =>
    show (a :: x :: c :: d :: t).getLast? = (a :: b :: c :: d :: t).getLast?
    rw [lastq_cons a (x :: c :: d :: t) (by simp), lastq_cons x (c :: d :: t) (by simp),
        lastq_cons a (b :: c :: d :: t) (by simp), lastq_cons b (c :: d :: t) (by simp)]

set_option maxHeartbeats 1000000 in
/-- The final B pass `_handle_hamzat_wasl` always outputs a `#`-bounded
string, whatever its input. -/
theorem handleHamzatWasl_boundary (text : Str) :
    (handleHamzatWasl text).head? = some '#' ∧
      (handleHamzatWasl text).getLast? = some '#' := by
  obtain ⟨hh, hl⟩ := cleanStr_boundary text
  obtain ⟨hch, hcl⟩ := strToChars_boundary (cleanStr text) hh hl
  simp only [handleHamzatWasl]
  have hne : ¬ ((strToChars (cleanStr text)).isEmpty = true) := by
    intro hc
    rw [List.isEmpty_iff] at hc
    rw [hc] at hch
    simp at hch
  rw [if_neg hne]
  have hbody : ∀ chars2 : List Str, chars2.head? = some ['#'] →
      chars2.getLast? = some ['#'] →
      ((pyReplace [sukunC, sukunC] [sukunC]
          (applyRules hamzatRules chars2.flatten)).head? = some '#' ∧
       (pyReplace [sukunC, sukunC] [sukunC]
          (applyRules hamzatRules chars2.flatten)).getLast? = some '#') := by
    intro chars2 h1 h2
    have hfl1 := flatten_headq chars2 h1
    have hfl2 := flatten_lastq chars2 h2
    obtain ⟨ha1, ha2⟩ := applyRules_boundary hamzatRules hamzatRules_facts _ hfl1 hfl2
    rw [pyReplace]
    constructor
    · exact pyReplaceAux_headq [sukunC, sukunC] [sukunC] '#' (by simp) (by decide) _ _ ha1
    · exact pyReplaceAux_lastq [sukunC, sukunC] [sukunC] (by simp) (by decide) _ _
        (by omega) ha2
  split_ifs with hcond
  · exact hbody _ (by rw [set1_headq]; exact hch)
      (by rw [set1_lastq _ _ (by omega)]; exact hcl)
  · exact hbody _ hch hcl

/-- C5 amended: after the four B passes the prosodic form always begins
with `#` and ends with `#` (the no-`##` part of the claim fails — see the
counterexample — because `_clean_str` appends a closing `#` to a text that
already ends in one). -/
theorem c5_boundary (text : Str) (isAjez : Bool) :
    (normalizeB text isAjez).head? = some '#' ∧
      (normalizeB text isAjez).getLast? = some '#' := by
  rw [normalizeB]
  exact handleHamzatWasl_boundary _

end Faraheedy
